import Mathlib

/-!
# Verification of the docmanBot core services

A shallow embedding of the docmanBot TypeScript services
(`pendingNotifications`, `conversationRegistry`, `documentApi`,
`documentStore`, `parseDocumentFilename`, and the notification-delivery
step of `messageRoutes`), with theorems checking the natural-language
specification against the embedded code.

Conventions of the embedding:
* JavaScript strings that may be `undefined`/`null` are modelled as
  `Option String`; a plain JS string is a Lean `String`.
* JS truthiness on such values (`undefined`, `null` and `""` are falsy)
  is `jsTruthy`; the JS `a || b` operator on strings is `jsOrStr`.
* The JSON files behind each store are modelled by their parsed content;
  a missing or unparsable file is `Option.none` where the code tolerates
  it.  Clock values (`Date.now()`, `new Date().toISOString()`) are taken
  as explicit parameters.
* Lean's `Char.isWhitespace`/`Char.toLower` stand in for the JS `\s`
  class and `toLowerCase` (they agree on ASCII, which is all the data
  model uses).
-/

namespace DocmanBot

/-- JS truthiness for a string-or-undefined value: `undefined`/`null` and
the empty string are falsy. -/
def jsTruthy : Option String → Bool
  | none => false
  | some s => !(s == "")

/-- The JS `a || b` operator on string-or-undefined values: yields `a`
when `a` is truthy, otherwise `b`. -/
def jsOrStr (a b : Option String) : Option String :=
  if jsTruthy a then a else b

/-- The JS `a ?? b` (nullish coalescing) operator. -/
def jsNullish (a b : Option String) : Option String :=
  match a with
  | some s => some s
  | none => b

/-- JS `String.prototype.trim` on a character list: drop whitespace from
both ends. -/
def trimChars (cs : List Char) : List Char :=
  ((cs.dropWhile Char.isWhitespace).reverse.dropWhile Char.isWhitespace).reverse

/-- JS `trim` on `String`. -/
def jsTrim (s : String) : String := ⟨trimChars s.toList⟩

/-- JS `toLowerCase` (ASCII; character-wise, so it evaluates by kernel
reduction). -/
def jsLower (s : String) : String := ⟨s.toList.map Char.toLower⟩

/-- JS `toUpperCase` (ASCII). -/
def jsUpper (s : String) : String := ⟨s.toList.map Char.toUpper⟩

/-! ## Notification queue (`src` pending-notifications service)

Embeds `tryExtractEmail`, `enqueueNewDocumentNotification`,
`matchesTarget` and `drainNotificationsForUser`. -/

/-- `NotificationTarget` from the pending-notifications service:
an optional Teams AAD object id and an optional email. -/
structure NotificationTarget where
  aadObjectId : Option String := none
  email : Option String := none
deriving Repr, DecidableEq

/-- The snapshot of an `ApprovalDocument`'s display fields kept inside a
queued notification (the `Pick<...>` in `PendingNotification.doc`). -/
structure DocSnapshot where
  id : String
  Title : Option String := none
  DocumentNo : Option String := none
  DocumentClass : Option String := none
  DocumentRevision : Option String := none
  OriginalFileName : Option String := none
  docType : Option String := none
deriving Repr, DecidableEq

/-- `PendingNotification`: one entry of `pendingNotifications.json`. -/
structure PendingNotification where
  id : String
  createdAt : String
  target : Option NotificationTarget := none
  doc : DocSnapshot
deriving Repr, DecidableEq

/-- Character class `[^\s()<>]` of the email-extraction regex. -/
def isEmailChar (c : Char) : Bool :=
  !(c.isWhitespace || c == '(' || c == ')' || c == '<' || c == '>')

/-- Fuel-driven worker for `splitRuns` (structural recursion, so that
concrete inputs evaluate by kernel reduction). -/
def splitRunsGo (p : Char → Bool) : Nat → List Char → List (List Char)
  | 0, _ => []
  | _ + 1, [] => []
  | fuel + 1, c :: rest =>
    if p c then (c :: rest.takeWhile p) :: splitRunsGo p fuel (rest.dropWhile p)
    else splitRunsGo p fuel rest

/-- Maximal runs of characters satisfying `p`, in order, with empty runs
dropped.  This is JS `s.split(<complement of p>+)` with empty pieces
filtered out.  (`splitRuns_cons` recovers the natural recursion.) -/
def splitRuns (p : Char → Bool) (cs : List Char) : List (List Char) :=
  splitRunsGo p cs.length cs

/-- Any sufficient fuel computes `splitRuns`. -/
theorem splitRunsGo_fuel (p : Char → Bool) :
    ∀ fuel, ∀ cs : List Char, cs.length ≤ fuel →
      splitRunsGo p fuel cs = splitRuns p cs := by
  intro fuel
  induction fuel using Nat.strong_induction_on with
  | _ fuel ih =>
    match fuel with
    | 0 =>
      intro cs hle
      rw [Nat.le_zero] at hle
      rw [List.length_eq_zero] at hle
      subst hle
      rfl
    | f + 1 =>
      intro cs hle
      match cs with
      | [] => rfl
      | c :: rest =>
        have hr : rest.length ≤ f := by
          simp only [List.length_cons] at hle
          omega
        show _ = splitRunsGo p (rest.length + 1) (c :: rest)
        simp only [splitRunsGo]
        by_cases hc : p c
        · simp only [hc, if_pos]
          rw [ih f (Nat.lt_succ_self f) _
              (le_trans (List.dropWhile_sublist p).length_le hr),
            ih rest.length (Nat.lt_succ_of_le hr) _
              (List.dropWhile_sublist p).length_le]
        · simp only [hc, Bool.false_eq_true, if_neg, not_false_iff]
          rw [ih f (Nat.lt_succ_self f) _ hr,
            ih rest.length (Nat.lt_succ_of_le hr) _ (Nat.le_refl _)]

/-- `splitRuns` on the empty list. -/
theorem splitRuns_nil (p : Char → Bool) : splitRuns p [] = [] := rfl

/-- The natural recursion of `splitRuns`. -/
theorem splitRuns_cons (p : Char → Bool) (c : Char) (rest : List Char) :
    splitRuns p (c :: rest) =
      if p c then (c :: rest.takeWhile p) :: splitRuns p (rest.dropWhile p)
      else splitRuns p rest := by
  show splitRunsGo p (rest.length + 1) (c :: rest) = _
  simp only [splitRunsGo]
  by_cases hc : p c
  · simp only [hc, if_pos]
    rw [splitRunsGo_fuel p rest.length _ (List.dropWhile_sublist p).length_le]
  · simp only [hc, Bool.false_eq_true, if_neg, not_false_iff]
    rw [splitRunsGo_fuel p rest.length rest (Nat.le_refl _)]

/-- Maximal runs of `isEmailChar` characters, in order.  A JS regex
match of `[^\s()<>]+@[^\s()<>]+` is always a full such run, see
`tryExtractEmail`. -/
def emailRuns (cs : List Char) : List (List Char) :=
  splitRuns isEmailChar cs

/-- A run matches `[^\s()<>]+@[^\s()<>]+` from its start iff it contains
an `@` that is neither its first nor its last character; the (greedy)
match is then the whole run. -/
def runHasAt (r : List Char) : Bool :=
  ((r.drop 1).dropLast).contains '@'

/-- `tryExtractEmail` from the pending-notifications service: the first
(leftmost) match of `[^\s()<>]+@[^\s()<>]+`, trimmed and lower-cased, or
`null`.  The leftmost match is the first maximal non-separator run
containing an interior `@`. -/
def tryExtractEmail (input : Option String) : Option String :=
  let s := input.getD ""
  match (emailRuns s.toList).find? runHasAt with
  | some r => some (jsLower ⟨r⟩)
  | none => none

/-- `ApprovalDocument` from `documentStore.ts` (both the current
metadata fields and the legacy fields). -/
structure ApprovalDocument where
  id : String
  state : Option String := none
  localPath : Option String := none
  docType : Option String := none
  Title : Option String := none
  DocumentNo : Option String := none
  DocumentClass : Option String := none
  Format : Option String := none
  DocumentSheet : Option String := none
  DocumentRevision : Option String := none
  OriginalFileType : Option String := none
  DocumentStatus : Option String := none
  FileStatus : Option String := none
  Language : Option String := none
  ResponsiblePerson : Option String := none
  ModifiedBy : Option String := none
  CreatedBy : Option String := none
  OriginalCreator : Option String := none
  DateCreated : Option String := none
  Modified : Option String := none
  CheckedOutBy : Option String := none
  DocumentType : Option String := none
  OriginalFileName : Option String := none
  title : Option String := none
  fileName : Option String := none
  docClass : Option String := none
  docNo : Option String := none
  docSheet : Option String := none
  docRev : Option String := none
  source : Option String := none
  submittedBy : Option String := none
  submittedAt : Option String := none
deriving Repr, DecidableEq

/-- `enqueueNewDocumentNotification`: derives a best-effort target email,
unshifts the new entry and caps the queue at 25.  `nid`/`ncreatedAt`
stand for `N-${Date.now()}` / `new Date().toISOString()`.  Note that the
stored `target` is always a present object, even when both of its fields
end up absent. -/
def enqueueNewDocumentNotification (queue : List PendingNotification)
    (doc : ApprovalDocument) (target : Option NotificationTarget)
    (nid ncreatedAt : String) : List PendingNotification :=
  let derivedEmail :=
    jsOrStr (target.bind (·.email))
      (jsOrStr (tryExtractEmail doc.ResponsiblePerson)
        (jsOrStr (tryExtractEmail doc.ModifiedBy)
          (jsOrStr (tryExtractEmail doc.CreatedBy)
            (tryExtractEmail doc.OriginalCreator))))
  let n : PendingNotification :=
    { id := nid
      createdAt := ncreatedAt
      target := some
        { aadObjectId := jsOrStr ((target.bind (·.aadObjectId)).map jsTrim) none
          email := jsOrStr derivedEmail none }
      doc :=
        { id := doc.id
          Title := doc.Title
          DocumentNo := doc.DocumentNo
          DocumentClass := doc.DocumentClass
          DocumentRevision := doc.DocumentRevision
          OriginalFileName := doc.OriginalFileName
          docType := doc.docType } }
  (n :: queue).take 25

/-- `matchesTarget` from the pending-notifications service. -/
def matchesTarget (n : PendingNotification) (user : NotificationTarget) : Bool :=
  match n.target with
  | none => true
  | some t =>
    if jsTruthy t.aadObjectId && jsTruthy user.aadObjectId then
      jsLower (t.aadObjectId.getD "") == jsLower (user.aadObjectId.getD "")
    else if jsTruthy t.email && jsTruthy user.email then
      jsLower (t.email.getD "") == jsLower (user.email.getD "")
    else false

/-- `drainNotificationsForUser`: partitions the stored queue into the
delivered entries and the persisted remainder.  The queue state is the
parsed content of `pendingNotifications.json` (`none` when the file is
missing or unreadable, in which case nothing is delivered and nothing is
written). -/
def drainNotificationsForUser (queue : Option (List PendingNotification))
    (user : NotificationTarget) :
    List PendingNotification × Option (List PendingNotification) :=
  match queue with
  | none => ([], none)
  | some list =>
    (list.filter (fun n => matchesTarget n user),
     some (list.filter (fun n => !(matchesTarget n user))))

/-- The data passed to `buildNewDocumentNotificationCard` by both the
injection API and the greeting handler. -/
structure NotificationCardData where
  title : String
  documentNo : Option String := none
  documentClass : Option String := none
  documentRevision : Option String := none
  fileName : Option String := none
  docType : Option String := none
deriving Repr, DecidableEq

/-- The card rendered for a drained notification in the greeting branch
of `messageRoutes` (`d.Title || d.OriginalFileName || d.id`). -/
def cardOfNotification (n : PendingNotification) : NotificationCardData :=
  { title := (jsOrStr n.doc.Title (jsOrStr n.doc.OriginalFileName (some n.doc.id))).getD ""
    documentNo := n.doc.DocumentNo
    documentClass := n.doc.DocumentClass
    documentRevision := n.doc.DocumentRevision
    fileName := n.doc.OriginalFileName
    docType := n.doc.docType }

/-- The notification-delivery step of the greeting / first-message branch
of `registerMessageRoutes`: drain every entry matching the requesting
identity, then render a card for the first drained entry only.  Returns
the persisted queue and the rendered cards. -/
def deliverQueuedNotifications (queue : Option (List PendingNotification))
    (user : NotificationTarget) :
    Option (List PendingNotification) × List NotificationCardData :=
  let r := drainNotificationsForUser queue user
  (r.2,
    match r.1 with
    | [] => []
    | n :: _ => [cardOfNotification n])

/-! ## Conversation registry (`conversationRegistry.ts`)

Embeds `upsertConversationRef`, `getConversationRefByAadObjectId` and
`findConversationIdForTarget`.  The two `Record<string, ConversationRef>`
maps are modelled as association lists with JS-object assignment
semantics (replace in place when the key exists, else append). -/

/-- `ConversationRef` from `conversationRegistry.ts`. -/
structure ConversationRef where
  conversationId : String
  serviceUrl : Option String := none
  updatedAt : String
  userLabel : Option String := none
  email : Option String := none
deriving Repr, DecidableEq

/-- The parsed content of `conversationRegistry.json`. -/
structure RegistryJson where
  byAadObjectId : List (String × ConversationRef) := []
  byEmail : List (String × ConversationRef) := []
deriving Repr, DecidableEq

/-- JS object assignment `m[k] = v`: replace in place when the key is
present, otherwise append. -/
def setKey (m : List (String × ConversationRef)) (k : String)
    (v : ConversationRef) : List (String × ConversationRef) :=
  if m.any (fun p => p.1 == k) then
    m.map (fun p => if p.1 == k then (k, v) else p)
  else m ++ [(k, v)]

/-- JS object lookup `m[k]`. -/
def getKey (m : List (String × ConversationRef)) (k : String) :
    Option ConversationRef :=
  (m.find? (fun p => p.1 == k)).map (·.2)

/-- The argument object of `upsertConversationRef`. -/
structure UpsertInput where
  aadObjectId : Option String := none
  email : Option String := none
  conversationId : String
  serviceUrl : Option String := none
  userLabel : Option String := none
deriving Repr, DecidableEq

/-- The reference snapshot built by `upsertConversationRef` (its `email`
is lower-cased when truthy, else absent). -/
def builtRef (input : UpsertInput) (now : String) : ConversationRef :=
  { conversationId := input.conversationId
    serviceUrl := input.serviceUrl
    updatedAt := now
    userLabel := input.userLabel
    email := if jsTruthy input.email then input.email.map jsLower else none }

/-- `upsertConversationRef`: writes the snapshot under the lower-cased
identity key when the identity is truthy, and under the lower-cased
email key when the email is truthy. -/
def upsertConversationRef (r : RegistryJson) (input : UpsertInput)
    (now : String) : RegistryJson :=
  let ref := builtRef input now
  let r1 :=
    if jsTruthy input.aadObjectId then
      { r with byAadObjectId :=
          setKey r.byAadObjectId (jsLower (input.aadObjectId.getD "")) ref }
    else r
  if jsTruthy ref.email then
    { r1 with byEmail := setKey r1.byEmail (jsLower (ref.email.getD "")) ref }
  else r1

/-- `getConversationRefByAadObjectId`: trims and lower-cases the query
and refuses an empty result. -/
def getConversationRefByAadObjectId (r : RegistryJson) (aadObjectId : String) :
    Option ConversationRef :=
  let id := jsLower (jsTrim aadObjectId)
  if id = "" then none else getKey r.byAadObjectId id

/-- `findConversationIdForTarget`: identity key first, then email key;
each hit must carry a truthy `conversationId`. -/
def findConversationIdForTarget (r : RegistryJson) (target : NotificationTarget) :
    Option String :=
  let tryEmail : Option String :=
    if jsTruthy target.email then
      match getKey r.byEmail (jsLower (target.email.getD "")) with
      | some v => if v.conversationId ≠ "" then some v.conversationId else none
      | none => none
    else none
  if jsTruthy target.aadObjectId then
    match getKey r.byAadObjectId (jsLower (target.aadObjectId.getD "")) with
    | some v => if v.conversationId ≠ "" then some v.conversationId else tryEmail
    | none => tryEmail
  else tryEmail

/-! ## Document API (`documentApi.ts`)

Embeds `inferDocTypeFromName`, `nextId` and `addDocumentToApprovalList`.
The persisted `approvalDocuments.json` content used by this module is
the `documents` array. -/

/-- `s.endsWith(suffix)`. -/
def endsWithStr (s suffixStr : String) : Bool :=
  suffixStr.toList.isSuffixOf s.toList

/-- `inferDocTypeFromName` from `documentApi.ts`. -/
def inferDocTypeFromName (name : String) : Option String :=
  let n := jsLower name
  if endsWithStr n ".pdf" then some "PDF"
  else if endsWithStr n ".docx" then some "DOCX"
  else if endsWithStr n ".xlsx" then some "XLSX"
  else if endsWithStr n ".xlsb" then some "XLSB"
  else if endsWithStr n ".xls" then some "XLS"
  else if endsWithStr n ".pptx" then some "PPTX"
  else if endsWithStr n ".ppt" then some "PPT"
  else if endsWithStr n ".txt" then some "TXT"
  else if endsWithStr n ".md" then some "MD"
  else none

/-- Decimal value of a digit string (the effect of JS `Number` on a
string of digits; the float overflow of `Number` on astronomically long
digit strings is not modelled). -/
def digitsToNat (cs : List Char) : Nat :=
  cs.foldl (fun a c => 10 * a + (c.toNat - '0'.toNat)) 0

/-- The `^DOC-(\d+)$/i` match of `nextId`, returning the numeric value
of the captured digits. -/
def parseDocIdNum (s : String) : Option Nat :=
  match s.toList with
  | c1 :: c2 :: c3 :: c4 :: rest =>
    if c1.toLower = 'd' ∧ c2.toLower = 'o' ∧ c3.toLower = 'c' ∧ c4 = '-' ∧
        rest ≠ [] ∧ rest.all Char.isDigit then
      some (digitsToNat rest)
    else none
  | _ => none

/-- JS `s.padStart(3, "0")`. -/
def padStart3 (s : String) : String :=
  if s.length ≥ 3 then s else ⟨List.replicate (3 - s.length) '0'⟩ ++ s

/-- `nextId` from `documentApi.ts`: the maximum over parsable
`DOC-<digits>` ids (0 when none), plus one, zero-padded to 3 digits. -/
def nextId (existing : List ApprovalDocument) : String :=
  let nums := existing.filterMap (fun d => parseDocIdNum d.id)
  let mx := nums.foldl max 0
  "DOC-" ++ padStart3 (toString (mx + 1))

/-- The id `nextId` produces when the current maximum is `n - 1`. -/
def mkDocId (n : Nat) : String :=
  "DOC-" ++ padStart3 (toString n)

/-- `AddDocumentInput` from `documentApi.ts`. -/
structure AddDocumentInput where
  localPath : String
  docType : Option String := none
  notifyEmail : Option String := none
  notifyAadObjectId : Option String := none
  Title : String
  DocumentNo : Option String := none
  DocumentClass : Option String := none
  DocumentRevision : Option String := none
  DocumentSheet : Option String := none
  OriginalFileType : Option String := none
  DocumentStatus : Option String := none
  FileStatus : Option String := none
  Language : Option String := none
  ResponsiblePerson : Option String := none
  ModifiedBy : Option String := none
  CreatedBy : Option String := none
  OriginalCreator : Option String := none
  DateCreated : Option String := none
  Modified : Option String := none
  CheckedOutBy : Option String := none
  DocumentType : Option String := none
  OriginalFileName : Option String := none
  Format : Option String := none
deriving Repr, DecidableEq

/-- Node `path.basename` as used on `input.localPath` (the portion after
the last `/`; trailing-separator trimming is not modelled). -/
def pathBasename (p : String) : String :=
  ⟨(p.toList.reverse.takeWhile (fun c => c ≠ '/')).reverse⟩

/-- `addDocumentToApprovalList`: assigns the next id, fills every
defaulted field and appends the record.  `nowIso` stands for
`new Date().toISOString()`.  Returns the created record and the
persisted collection. -/
def addDocumentToApprovalList (store : List ApprovalDocument)
    (input : AddDocumentInput) (nowIso : String) :
    ApprovalDocument × List ApprovalDocument :=
  let id := nextId store
  let fileName :=
    if jsTruthy input.OriginalFileName then input.OriginalFileName.getD ""
    else pathBasename input.localPath
  let docType :=
    jsOrStr input.docType
      (jsOrStr (inferDocTypeFromName fileName) (inferDocTypeFromName input.localPath))
  let doc : ApprovalDocument :=
    { id := id
      state := some "pendingApproval"
      localPath := some input.localPath
      docType := docType
      Title := some input.Title
      DocumentNo := jsNullish input.DocumentNo (some "")
      DocumentClass := jsNullish input.DocumentClass (some "")
      Format := jsNullish input.Format (some "*")
      DocumentSheet := jsNullish input.DocumentSheet (some "1")
      DocumentRevision := jsNullish input.DocumentRevision (some "")
      OriginalFileType := jsNullish input.OriginalFileType (jsNullish docType (some ""))
      DocumentStatus := jsNullish input.DocumentStatus (some "Preliminary")
      FileStatus := jsNullish input.FileStatus (some "Checked In")
      Language := jsNullish input.Language (some "en")
      ResponsiblePerson := jsNullish input.ResponsiblePerson (some "")
      ModifiedBy := jsNullish input.ModifiedBy (some "")
      CreatedBy := jsNullish input.CreatedBy (some "")
      OriginalCreator := jsNullish input.OriginalCreator (some "")
      DateCreated := jsNullish input.DateCreated (some nowIso)
      Modified := jsNullish input.Modified (some nowIso)
      CheckedOutBy := jsNullish input.CheckedOutBy (some "")
      DocumentType := jsNullish input.DocumentType (some "ORIGINAL")
      OriginalFileName := some fileName }
  (doc, store ++ [doc])

/-- Repeated injection through `addDocumentToApprovalList`, starting from
a given collection; each element pairs an input with its clock value. -/
def addDocumentsFromStore (store : List ApprovalDocument)
    (inputs : List (AddDocumentInput × String)) : List ApprovalDocument :=
  inputs.foldl (fun st p => (addDocumentToApprovalList st p.1 p.2).2) store

/-! ## Document record store (`documentStore.ts`)

Embeds `inferDocType`, `normalizeDoc`, `getAllDocuments` and
`setDocumentState`.  The store state is the parsed content of
`approvalDocuments.json` (`none` for a missing or unparsable file); the
three-candidate path probing resolves to this single file. -/

/-- The parsed content of `approvalDocuments.json`: the current
`documents` shape or the legacy `pending` shape. -/
structure ApprovalDocumentsJson where
  documents : Option (List ApprovalDocument) := none
  pending : Option (List ApprovalDocument) := none
deriving Repr, DecidableEq

/-- `inferDocType` from `documentStore.ts` (the variant also consulting
`OriginalFileName`). -/
def inferDocTypeStore (doc : ApprovalDocument) : Option String :=
  let n := jsLower ((jsOrStr doc.localPath
    (jsOrStr doc.OriginalFileName (jsOrStr doc.fileName none))).getD "")
  if endsWithStr n ".pdf" then some "PDF"
  else if endsWithStr n ".docx" then some "DOCX"
  else if endsWithStr n ".xlsx" then some "XLSX"
  else if endsWithStr n ".xlsb" then some "XLSB"
  else if endsWithStr n ".xls" then some "XLS"
  else if endsWithStr n ".pptx" then some "PPTX"
  else if endsWithStr n ".ppt" then some "PPT"
  else if endsWithStr n ".txt" then some "TXT"
  else if endsWithStr n ".md" then some "MD"
  else none

/-- `normalizeDoc` from `documentStore.ts`: carry legacy values into the
new fields when missing, default the state, infer the doc type. -/
def normalizeDoc (doc : ApprovalDocument) : ApprovalDocument :=
  let docType := jsNullish doc.docType (inferDocTypeStore doc)
  { doc with
    docType := docType
    state := jsNullish doc.state (some "pendingApproval")
    Title := jsNullish doc.Title (jsNullish doc.title
      (jsNullish doc.OriginalFileName (jsNullish doc.fileName (some doc.id))))
    DocumentNo := jsNullish doc.DocumentNo doc.docNo
    DocumentClass := jsNullish doc.DocumentClass doc.docClass
    DocumentSheet := jsNullish doc.DocumentSheet doc.docSheet
    DocumentRevision := jsNullish doc.DocumentRevision doc.docRev
    OriginalFileName := jsNullish doc.OriginalFileName doc.fileName
    OriginalFileType := jsNullish doc.OriginalFileType docType }

/-- `getAllDocuments`: normalize the `documents` array, else the legacy
`pending` array, else the empty list (also for a missing file). -/
def getAllDocuments (store : Option ApprovalDocumentsJson) : List ApprovalDocument :=
  match store with
  | none => []
  | some j =>
    match j.documents with
    | some l => l.map normalizeDoc
    | none =>
      match j.pending with
      | some l => l.map normalizeDoc
      | none => []

/-- `docs[idx] = {...docs[idx], state}`. -/
def setStateAt (docs : List ApprovalDocument) (idx : Nat) (state : String) :
    List ApprovalDocument :=
  match docs, idx with
  | [], _ => []
  | d :: tl, 0 => { d with state := some state } :: tl
  | d :: tl, n + 1 => d :: setStateAt tl n state

/-- `setDocumentState`: `false` on an empty or unknown id (store left
untouched), else replace the state of the record at the found index and
persist the full collection under the `documents` key. -/
def setDocumentState (store : Option ApprovalDocumentsJson) (id : String)
    (state : String) : Bool × Option ApprovalDocumentsJson :=
  if id = "" then (false, store)
  else
    let docs := getAllDocuments store
    match docs.findIdx? (fun d => d.id == id) with
    | none => (false, store)
    | some idx =>
      (true, some { documents := some (setStateAt docs idx state), pending := none })

/-! ## Filename metadata parser (`parseDocumentFilename.ts`)

Embeds `isIFSMetadataPattern`, `parseDocumentFilename`,
`parseMetadataTokens` and the regular expressions they use, as
character-list scanners with JS regex semantics (leftmost match, greedy
quantifiers with backtracking where the pattern requires it). -/

/-- `ParsedDocumentInfo` from `parseDocumentFilename.ts`. -/
structure ParsedDocumentInfo where
  title : String
  docClass : String
  docNo : String
  docSheet : String
  docRev : String
  fileExtension : String
  isIFSFormat : Bool
  isCopy : Bool
deriving Repr, DecidableEq

/-- The separator class `[-_\s]` of `isIFSMetadataPattern`. -/
def isSepChar (c : Char) : Bool :=
  c = '-' || c = '_' || c.isWhitespace

/-- `isIFSMetadataPattern`: tokenize on `[-_\s]+` and check that, of at
least 4 tokens, the 3rd- and 2nd-from-last are all digits and the last
is alphanumeric. -/
def isIFSMetadataPattern (cs : List Char) : Bool :=
  let tokens := splitRuns (fun c => !isSepChar c) cs
  match tokens.reverse with
  | docRev :: docSheet :: docNo :: _ :: _ =>
    docNo.all Char.isDigit && docSheet.all Char.isDigit &&
      docRev.all Char.isAlphanum
  | _ => false

/-- `/^copy of\s+/i.test(...)`. -/
def testCopyOf (cs : List Char) : Bool :=
  match cs with
  | c1 :: c2 :: c3 :: c4 :: c5 :: c6 :: c7 :: c8 :: _ =>
    ([c1, c2, c3, c4, c5, c6, c7].map Char.toLower
        == ['c', 'o', 'p', 'y', ' ', 'o', 'f']) && c8.isWhitespace
  | _ => false

/-- `filename.replace(/^Copy of\s+/i, "")`. -/
def stripCopyOf (cs : List Char) : List Char :=
  match cs with
  | c1 :: c2 :: c3 :: c4 :: c5 :: c6 :: c7 :: rest =>
    if [c1, c2, c3, c4, c5, c6, c7].map Char.toLower
        == ['c', 'o', 'p', 'y', ' ', 'o', 'f'] then
      match rest with
      | c8 :: _ =>
        if c8.isWhitespace then rest.dropWhile Char.isWhitespace else cs
      | [] => cs
    else cs
  | _ => cs

/-- Split at the last `.` (`lastIndexOf`): returns the name without the
extension and the extension including its dot (empty when there is no
dot). -/
def splitAtLastDot (cs : List Char) : List Char × List Char :=
  if cs.contains '.' then
    let r := cs.reverse
    (((r.dropWhile (fun c => c ≠ '.')).drop 1).reverse,
      '.' :: (r.takeWhile (fun c => c ≠ '.')).reverse)
  else (cs, [])

/-- `replace(/\s*-\s*\d+\s*$/, "")`: strip a trailing version suffix such
as `" - 1"`. -/
def stripVersionSuffix (cs : List Char) : List Char :=
  match cs.reverse.dropWhile Char.isWhitespace with
  | [] => cs
  | c :: tl =>
    if c.isDigit then
      match (tl.dropWhile Char.isDigit).dropWhile Char.isWhitespace with
      | c2 :: tl2 =>
        if c2 = '-' then (tl2.dropWhile Char.isWhitespace).reverse else cs
      | [] => cs
    else cs

/-- Scan until the first occurrence of `stop`: returns the characters
before it and the remainder after it, or `none` when `stop` does not
occur. -/
def spanUntil (stop : Char) : List Char → Option (List Char × List Char)
  | [] => none
  | c :: rest =>
    if c = stop then some ([], rest)
    else
      match spanUntil stop rest with
      | some (pre, post) => some (c :: pre, post)
      | none => none

/-- `spanUntil` consumes at least one character beyond its result. -/
theorem spanUntil_length {stop : Char} :
    ∀ {l pre post : List Char}, spanUntil stop l = some (pre, post) →
      l.length = pre.length + 1 + post.length := by
  intro l
  induction l with
  | nil => intro pre post h; simp [spanUntil] at h
  | cons c rest ih =>
    intro pre post h
    by_cases hc : c = stop
    · simp [spanUntil, hc] at h
      simp [← h.1, ← h.2, Nat.add_comm]
    · simp only [spanUntil, if_neg hc] at h
      cases hs : spanUntil stop rest with
      | none => rw [hs] at h; simp at h
      | some pr =>
        rw [hs] at h
        simp at h
        have := @ih pr.1 pr.2 (by rw [hs])
        simp [← h.1, ← h.2, this]
        omega

/-- Fuel-driven worker for `findGroups`. -/
def findGroupsGo (op cl : Char) : Nat → List Char → Nat → List (Nat × List Char)
  | 0, _, _ => []
  | _ + 1, [], _ => []
  | fuel + 1, c :: rest, i =>
    if c = op then
      match spanUntil cl rest with
      | some (content, rest') =>
        if content = [] then findGroupsGo op cl fuel rest (i + 1)
        else (i, content) :: findGroupsGo op cl fuel rest' (i + content.length + 2)
      | none => findGroupsGo op cl fuel rest (i + 1)
    else findGroupsGo op cl fuel rest (i + 1)

/-- All matches of `/\(([^)]+)\)/g` (or the bracket variant), with their
start indices: at each `op`, the content up to the next `cl` when it is
nonempty; scanning resumes after each match.  (`findGroups_cons`
recovers the natural recursion.) -/
def findGroups (op cl : Char) (cs : List Char) (i : Nat) :
    List (Nat × List Char) :=
  findGroupsGo op cl cs.length cs i

/-- Any sufficient fuel computes `findGroups`. -/
theorem findGroupsGo_fuel (op cl : Char) :
    ∀ fuel, ∀ (cs : List Char) (i : Nat), cs.length ≤ fuel →
      findGroupsGo op cl fuel cs i = findGroups op cl cs i := by
  intro fuel
  induction fuel using Nat.strong_induction_on with
  | _ fuel ih =>
    match fuel with
    | 0 =>
      intro cs i hle
      rw [Nat.le_zero] at hle
      rw [List.length_eq_zero] at hle
      subst hle
      rfl
    | f + 1 =>
      intro cs i hle
      match cs with
      | [] => rfl
      | c :: rest =>
        have hr : rest.length ≤ f := by
          simp only [List.length_cons] at hle
          omega
        show _ = findGroupsGo op cl (rest.length + 1) (c :: rest) i
        simp only [findGroupsGo]
        by_cases hc : c = op
        · simp only [hc, if_pos]
          cases hs : spanUntil cl rest with
          | none =>
            rw [ih f (Nat.lt_succ_self f) rest _ hr,
              ih rest.length (Nat.lt_succ_of_le hr) rest _ (Nat.le_refl _)]
          | some pr =>
            obtain ⟨content, rest'⟩ := pr
            have hr' : rest'.length ≤ rest.length := by
              have := spanUntil_length hs
              omega
            by_cases hcc : content = []
            · simp only [hcc, if_pos]
              rw [ih f (Nat.lt_succ_self f) rest _ hr,
                ih rest.length (Nat.lt_succ_of_le hr) rest _ (Nat.le_refl _)]
            · simp only [hcc, if_neg, not_false_iff]
              rw [ih f (Nat.lt_succ_self f) rest' _ (le_trans hr' hr),
                ih rest.length (Nat.lt_succ_of_le hr) rest' _ hr']
        · simp only [hc, if_neg, not_false_iff]
          rw [ih f (Nat.lt_succ_self f) rest _ hr,
            ih rest.length (Nat.lt_succ_of_le hr) rest _ (Nat.le_refl _)]

/-- `findGroups` on the empty list. -/
theorem findGroups_nil (op cl : Char) (i : Nat) : findGroups op cl [] i = [] := rfl

/-- The natural recursion of `findGroups`. -/
theorem findGroups_cons (op cl c : Char) (rest : List Char) (i : Nat) :
    findGroups op cl (c :: rest) i =
      if c = op then
        match spanUntil cl rest with
        | some (content, rest') =>
          if content = [] then findGroups op cl rest (i + 1)
          else (i, content) :: findGroups op cl rest' (i + content.length + 2)
        | none => findGroups op cl rest (i + 1)
      else findGroups op cl rest (i + 1) := by
  show findGroupsGo op cl (rest.length + 1) (c :: rest) i = _
  simp only [findGroupsGo]
  by_cases hc : c = op
  · simp only [hc, if_pos]
    cases hs : spanUntil cl rest with
    | none => rw [findGroupsGo_fuel op cl rest.length rest _ (Nat.le_refl _)]
    | some pr =>
      obtain ⟨content, rest'⟩ := pr
      have hr' : rest'.length ≤ rest.length := by
        have := spanUntil_length hs
        omega
      by_cases hcc : content = []
      · simp only [hcc, if_pos]
        rw [findGroupsGo_fuel op cl rest.length rest _ (Nat.le_refl _)]
      · simp only [hcc, if_neg, not_false_iff]
        rw [findGroupsGo_fuel op cl rest.length rest' _ hr']
  · simp only [hc, if_neg, not_false_iff]
    rw [findGroupsGo_fuel op cl rest.length rest _ (Nat.le_refl _)]

/-- Insertion into a list sorted by start index. -/
def insertByIdx (x : Nat × List Char) :
    List (Nat × List Char) → List (Nat × List Char)
  | [] => [x]
  | y :: ys => if x.1 ≤ y.1 then x :: y :: ys else y :: insertByIdx x ys

/-- The `sort((a, b) => a.index - b.index)` of the collected matches. -/
def sortByIdx : List (Nat × List Char) → List (Nat × List Char)
  | [] => []
  | x :: xs => insertByIdx x (sortByIdx xs)

/-- All paren- and bracket-delimited groups, in document order. -/
def allGroupMatches (cs : List Char) : List (Nat × List Char) :=
  sortByIdx (findGroups '(' ')' cs 0 ++ findGroups '[' ']' cs 0)

/-- The right-to-left search for the first group whose content satisfies
`isIFSMetadataPattern`. -/
def pickMetadataGroup (cs : List Char) : Option (Nat × List Char) :=
  (allGroupMatches cs).reverse.find? (fun g => isIFSMetadataPattern g.2)

/-- The trailing-residue class `[\s()[\]]` stripped from the title. -/
def isTitleStripChar (c : Char) : Bool :=
  c.isWhitespace || c = '(' || c = ')' || c = '[' || c = ']'

/-- Drop a trailing run of characters satisfying `p`. -/
def stripTrailing (p : Char → Bool) (cs : List Char) : List Char :=
  (cs.reverse.dropWhile p).reverse

/-- `replace(/\(.+?\)|\[.+?\]/g, "")`: remove every remaining bracket or
paren group (lazy match up to the nearest closer, at least one character
inside). -/
def removeBracketGroups (cs : List Char) : List Char :=
  match cs with
  | [] => []
  | c :: rest =>
    if c = '(' then
      match h : spanUntil ')' rest with
      | some (content, rest') =>
        if content = [] then c :: removeBracketGroups rest
        else removeBracketGroups rest'
      | none => c :: removeBracketGroups rest
    else if c = '[' then
      match h : spanUntil ']' rest with
      | some (content, rest') =>
        if content = [] then c :: removeBracketGroups rest
        else removeBracketGroups rest'
      | none => c :: removeBracketGroups rest
    else c :: removeBracketGroups rest
termination_by cs.length
decreasing_by
  · simp
  · have := spanUntil_length h
    simp
    omega
  · simp
  · simp
  · have := spanUntil_length h
    simp
    omega
  · simp
  · simp

/-- Consume one `/\s+-\s+/` separator from the front, greedily. -/
def matchWsHyphenWs (cs : List Char) : Option (List Char) :=
  match cs with
  | [] => none
  | c :: rest =>
    if c.isWhitespace then
      match rest.dropWhile Char.isWhitespace with
      | c2 :: r2 =>
        if c2 = '-' then
          match r2 with
          | c3 :: r3 =>
            if c3.isWhitespace then some (r3.dropWhile Char.isWhitespace)
            else none
          | [] => none
        else none
      | [] => none
    else none

/-- A successful `matchWsHyphenWs` consumes at least one character. -/
theorem matchWsHyphenWs_length {cs rest : List Char}
    (h : matchWsHyphenWs cs = some rest) : rest.length < cs.length := by
  match cs with
  | [] => simp [matchWsHyphenWs] at h
  | c :: tl =>
    simp only [matchWsHyphenWs] at h
    by_cases hw : c.isWhitespace
    · simp only [hw, if_pos] at h
      cases hd : tl.dropWhile Char.isWhitespace with
      | nil => rw [hd] at h; simp at h
      | cons c2 r2 =>
        rw [hd] at h
        by_cases h2 : c2 = '-'
        · simp only [h2, if_pos] at h
          cases r2 with
          | nil => simp at h
          | cons c3 r3 =>
            by_cases h3 : c3.isWhitespace
            · simp only [h3, if_pos] at h
              have hle : (tl.dropWhile Char.isWhitespace).length ≤ tl.length :=
                (List.dropWhile_sublist _).length_le
              have hle2 : (r3.dropWhile Char.isWhitespace).length ≤ r3.length :=
                (List.dropWhile_sublist _).length_le
              rw [hd] at hle
              simp at hle
              have h' : rest = r3.dropWhile Char.isWhitespace := by
                injection h with h4
                exact h4.symm
              rw [h']
              simp only [List.length_cons]
              omega
            · simp [h3] at h
        · simp [h2] at h
    · simp [hw] at h

/-- Fuel-driven worker for `splitTokensWHW`. -/
def splitTokensWHWGo : Nat → List Char → List Char → List (List Char)
  | 0, _, cur => [cur.reverse]
  | _ + 1, [], cur => [cur.reverse]
  | fuel + 1, c :: rest, cur =>
    match matchWsHyphenWs (c :: rest) with
    | some rest' => cur.reverse :: splitTokensWHWGo fuel rest' []
    | none => splitTokensWHWGo fuel rest (c :: cur)

/-- JS `metadataString.split(/\s+-\s+/)`: pieces between separator
matches, scanning left to right.  (`splitTokensWHW_cons` recovers the
natural recursion.) -/
def splitTokensWHW (cs : List Char) (cur : List Char) : List (List Char) :=
  splitTokensWHWGo cs.length cs cur

/-- Any sufficient fuel computes `splitTokensWHW`. -/
theorem splitTokensWHWGo_fuel :
    ∀ fuel, ∀ (cs cur : List Char), cs.length ≤ fuel →
      splitTokensWHWGo fuel cs cur = splitTokensWHW cs cur := by
  intro fuel
  induction fuel using Nat.strong_induction_on with
  | _ fuel ih =>
    match fuel with
    | 0 =>
      intro cs cur hle
      rw [Nat.le_zero] at hle
      rw [List.length_eq_zero] at hle
      subst hle
      rfl
    | f + 1 =>
      intro cs cur hle
      match cs with
      | [] => rfl
      | c :: rest =>
        have hr : rest.length ≤ f := by
          simp only [List.length_cons] at hle
          omega
        show _ = splitTokensWHWGo (rest.length + 1) (c :: rest) cur
        simp only [splitTokensWHWGo]
        cases hm : matchWsHyphenWs (c :: rest) with
        | none =>
          dsimp only
          rw [ih f (Nat.lt_succ_self f) rest _ hr,
            ih rest.length (Nat.lt_succ_of_le hr) rest _ (Nat.le_refl _)]
        | some rest' =>
          have hr' : rest'.length ≤ rest.length := by
            have := matchWsHyphenWs_length hm
            simp only [List.length_cons] at this
            omega
          dsimp only
          rw [ih f (Nat.lt_succ_self f) rest' _ (le_trans hr' hr),
            ih rest.length (Nat.lt_succ_of_le hr) rest' _ hr']

/-- `splitTokensWHW` on the empty list. -/
theorem splitTokensWHW_nil (cur : List Char) :
    splitTokensWHW [] cur = [cur.reverse] := rfl

/-- The natural recursion of `splitTokensWHW`. -/
theorem splitTokensWHW_cons (c : Char) (rest cur : List Char) :
    splitTokensWHW (c :: rest) cur =
      match matchWsHyphenWs (c :: rest) with
      | some rest' => cur.reverse :: splitTokensWHW rest' []
      | none => splitTokensWHW rest (c :: cur) := by
  show splitTokensWHWGo (rest.length + 1) (c :: rest) cur = _
  simp only [splitTokensWHWGo]
  cases hm : matchWsHyphenWs (c :: rest) with
  | none =>
    dsimp only
    rw [splitTokensWHWGo_fuel rest.length rest _ (Nat.le_refl _)]
  | some rest' =>
    have hr' : rest'.length ≤ rest.length := by
      have := matchWsHyphenWs_length hm
      simp only [List.length_cons] at this
      omega
    dsimp only
    rw [splitTokensWHWGo_fuel rest.length rest' _ hr']

/-- `parseMetadataTokens` from `parseDocumentFilename.ts`. -/
def parseMetadataTokens (metadataString titlePart nameWithoutExt extension
    : List Char) (filename : String) : ParsedDocumentInfo :=
  match (((splitTokensWHW metadataString []).map trimChars).filter
      (fun t => t ≠ [])).reverse with
  | docRev :: docSheet :: docNo :: c1 :: crest =>
    { title := if titlePart = [] then "Untitled" else ⟨titlePart⟩
      docClass := ⟨trimChars (List.intercalate [' ', '-', ' '] ((c1 :: crest).reverse))⟩
      docNo := ⟨trimChars docNo⟩
      docSheet := ⟨trimChars docSheet⟩
      docRev := jsUpper ⟨trimChars docRev⟩
      fileExtension := if extension = [] then "" else jsUpper ⟨extension⟩
      isIFSFormat := true
      isCopy := testCopyOf filename.toList }
  | _ =>
    { title := ⟨if titlePart = [] then nameWithoutExt else titlePart⟩
      docClass := ""
      docNo := ""
      docSheet := ""
      docRev := ""
      fileExtension := if extension = [] then "" else jsUpper ⟨extension⟩
      isIFSFormat := false
      isCopy := testCopyOf filename.toList }

/-- The class `[A-Z0-9-]` (with `/i`) of the alternative pattern. -/
def isAltClassChar (c : Char) : Bool :=
  c.isAlphanum || c = '-'

/-- Consume `\s*[-_]\s*` from the front (greedy; deterministic because
whitespace, `[-_]` and the neighbouring token classes are disjoint). -/
def eatAltSep (cs : List Char) : Option (List Char) :=
  match cs.dropWhile Char.isWhitespace with
  | c :: rest =>
    if c = '-' || c = '_' then some (rest.dropWhile Char.isWhitespace)
    else none
  | [] => none

/-- Match `\s*[-_]\s*(\d+)\s*[-_]\s*(\d+)\s*[-_]\s*([A-Z0-9]+)` at the
front, returning the three captures. -/
def altTryRest (cs : List Char) : Option (List Char × List Char × List Char) :=
  match eatAltSep cs with
  | none => none
  | some r1 =>
    match r1.takeWhile Char.isDigit with
    | [] => none
    | d1 =>
      match eatAltSep (r1.dropWhile Char.isDigit) with
      | none => none
      | some r2 =>
        match r2.takeWhile Char.isDigit with
        | [] => none
        | d2 =>
          match eatAltSep (r2.dropWhile Char.isDigit) with
          | none => none
          | some r3 =>
            match r3.takeWhile Char.isAlphanum with
            | [] => none
            | a => some (d1, d2, a)

/-- Backtracking over the greedy `([A-Z0-9-]+)` capture: try prefix
lengths `k, k-1, …, 1` of the class run. -/
def altTryP1 (run after : List Char) :
    Nat → Option (List Char × List Char × List Char × List Char)
  | 0 => none
  | k + 1 =>
    match altTryRest (run.drop (k + 1) ++ after) with
    | some (d1, d2, a) => some (run.take (k + 1), d1, d2, a)
    | none => altTryP1 run after k

/-- Leftmost match of the alternative pattern
`/([A-Z0-9-]+)\s*[-_]\s*(\d+)\s*[-_]\s*(\d+)\s*[-_]\s*([A-Z0-9]+)/i`:
scan the start positions left to right; at each, backtrack the first
capture from longest to shortest. -/
def altScan (cs : List Char) (i : Nat) :
    Option (Nat × List Char × List Char × List Char × List Char) :=
  match cs with
  | [] => none
  | c :: rest =>
    if isAltClassChar c then
      let run := c :: rest.takeWhile isAltClassChar
      match altTryP1 run ((c :: rest).dropWhile isAltClassChar) run.length with
      | some (p1, d1, d2, a) => some (i, p1, d1, d2, a)
      | none => altScan rest (i + 1)
    else altScan rest (i + 1)

/-- `cleanFileName.replace(/\.[^.]*$/, "")`: drop the last dot and
everything after it. -/
def dropLastDotGroup (cs : List Char) : List Char :=
  if cs.contains '.' then ((cs.reverse.dropWhile (fun c => c ≠ '.')).drop 1).reverse
  else cs

/-- `filename.replace(/^Copy of\s+/i, "").trim()` — the cleaned name. -/
def cleanedName (s : String) : List Char := trimChars (stripCopyOf s.toList)

/-- The name-without-extension / extension split of the cleaned name. -/
def coreNameExt (s : String) : List Char × List Char :=
  splitAtLastDot (cleanedName s)

/-- The cleaned name without extension, with the trailing version suffix
stripped — the string the group scan and the alternative pattern run
on. -/
def coreWithoutVersion (s : String) : List Char :=
  stripVersionSuffix (coreNameExt s).1

/-- The body of `parseDocumentFilename` after its input guard. -/
def parseDocumentFilenameCore (s : String) : ParsedDocumentInfo :=
  let cleanFileName := cleanedName s
  let nameWithoutExt := (coreNameExt s).1
  let extension := (coreNameExt s).2
  let withoutVersion := coreWithoutVersion s
  match pickMetadataGroup withoutVersion with
  | some (idx, content) =>
    let t1 := trimChars (withoutVersion.take idx)
    let t2 := trimChars (stripTrailing isTitleStripChar t1)
    let r := removeBracketGroups t2
    let titlePart := if r = t2 then t2 else trimChars r
    parseMetadataTokens content titlePart nameWithoutExt extension s
  | none =>
    match altScan withoutVersion 0 with
    | some (idx, p1, d1, d2, a) =>
      let titlePart := trimChars (withoutVersion.take idx)
      { title :=
          if titlePart = [] then ⟨dropLastDotGroup cleanFileName⟩ else ⟨titlePart⟩
        docClass := ⟨trimChars p1⟩
        docNo := ⟨trimChars d1⟩
        docSheet := ⟨trimChars d2⟩
        docRev := jsUpper ⟨trimChars a⟩
        fileExtension := if extension = [] then "" else jsUpper ⟨extension⟩
        isIFSFormat := true
        isCopy := testCopyOf s.toList }
    | none =>
      { title := ⟨if withoutVersion = [] then nameWithoutExt else withoutVersion⟩
        docClass := ""
        docNo := ""
        docSheet := ""
        docRev := ""
        fileExtension := if extension = [] then "" else jsUpper ⟨extension⟩
        isIFSFormat := false
        isCopy := testCopyOf s.toList }

/-- `parseDocumentFilename`: null for a null/undefined (or, through JS
falsiness, empty-string) input, else the parsed result. -/
def parseDocumentFilename (filename : Option String) : Option ParsedDocumentInfo :=
  match filename with
  | none => none
  | some s => if s = "" then none else some (parseDocumentFilenameCore s)

/-- Paren or bracket characters (used to state well-formedness of a
structured filename's components). -/
def isGroupChar (c : Char) : Bool :=
  c = '(' || c = ')' || c = '[' || c = ']'

/-- The `" - "` separator of the structured format. -/
def ifsSep3 : List Char := ' ' :: '-' :: ' ' :: []

/-- The metadata-group content `"C - N - S - R"`. -/
def ifsContent (C N S R : List Char) : List Char :=
  C ++ ifsSep3 ++ N ++ ifsSep3 ++ S ++ ifsSep3 ++ R

/-- The structured filename `"T (C - N - S - R) - 1.ext"` assembled from
its components. -/
def mkStructuredName (T C N S R ext : List Char) : List Char :=
  T ++ (' ' :: '(' :: []) ++ ifsContent C N S R ++
    (')' :: ' ' :: '-' :: ' ' :: '1' :: '.' :: []) ++ ext

/-! ## Sample data used by the concrete witnesses -/

/-- A requester with an AAD object id and no email. -/
def sampleUser : NotificationTarget := ⟨some "u1", none⟩

/-- An entry targeted (case-insensitively) at `sampleUser`'s AAD id. -/
def sampleAadEntry : PendingNotification :=
  ⟨"N-1", "t1", some ⟨some "U1", none⟩,
    ⟨"DOC-001", some "Doc one", none, none, none, none, none⟩⟩

/-- A second entry targeted at `sampleUser`'s AAD id. -/
def sampleAadEntry2 : PendingNotification :=
  ⟨"N-2", "t2", some ⟨some "u1", none⟩,
    ⟨"DOC-002", some "Doc two", none, none, none, none, none⟩⟩

/-- An entry targeted at an email `sampleUser` does not have. -/
def sampleEmailEntry : PendingNotification :=
  ⟨"N-3", "t3", some ⟨none, some "z@z"⟩,
    ⟨"DOC-003", some "Doc three", none, none, none, none, none⟩⟩

/-- Three sample injection requests. -/
def samplePairs : List (AddDocumentInput × String) :=
  [({ localPath := "docs/a.txt", Title := "A" }, "t1"),
   ({ localPath := "docs/b.pdf", Title := "B" }, "t2"),
   ({ localPath := "c", Title := "C" }, "t3")]

/-- A sample persisted document store holding two records, the second in
partly legacy shape. -/
def sampleStore : Option ApprovalDocumentsJson :=
  some
    { documents := some
        [{ id := "DOC-001", state := some "pendingApproval",
           Title := some "First", localPath := some "docs/a.txt" },
         { id := "DOC-002", title := some "Second", fileName := some "b.pdf" }]
      pending := none }

/-! ## Theorems about the notification queue -/

/-- Every entry produced by `enqueueNewDocumentNotification` carries a
present `target` object (the broadcast case `target = none` of
`matchesTarget` is unreachable for enqueued entries). -/
theorem enqueue_target_isSome (q : List PendingNotification)
    (doc : ApprovalDocument) (target : Option NotificationTarget)
    (nid nc : String) :
    ((enqueueNewDocumentNotification q doc target nid nc).head?.map
      (fun n => n.target.isSome)) = some true := by
  rfl

/-- A notification whose stored target has both fields absent matches no
requester at all. -/
theorem matchesTarget_empty_target_false (n : PendingNotification)
    (h : n.target = some { aadObjectId := none, email := none })
    (user : NotificationTarget) : matchesTarget n user = false := by
  simp [matchesTarget, h, jsTruthy]

/-- C1: the claim fails on the code.  A document record enqueued with no
target (and no email-shaped text in any of its person fields) produces
an entry whose `target` is the empty object `{}`; since that object is
present, `matchesTarget` never takes its broadcast branch, both field
comparisons fail, and `drainNotificationsForUser` never returns the
entry to any requesting identity — the queue retains it forever.  (The
second conjunct: an entry targeted at `a@b` is matched exactly by a
requester whose email equals `a@b` case-insensitively, and never via any
other identity.) -/
theorem enqueue_without_target_is_never_delivered :
    (∀ user : NotificationTarget,
      drainNotificationsForUser
        (some (enqueueNewDocumentNotification [] { id := "DOC-001" } none "N-7" "t1"))
        user =
      ([], some (enqueueNewDocumentNotification [] { id := "DOC-001" } none "N-7" "t1"))) ∧
    (∀ user : NotificationTarget,
      (enqueueNewDocumentNotification []
          { id := "DOC-002" } (some { email := some "a@b" }) "N-8" "t2").head?.map
        (fun n => matchesTarget n user) =
      some (jsTruthy user.email && (jsLower "a@b" == jsLower (user.email.getD "")))) := by
  constructor
  · intro user
    have he : enqueueNewDocumentNotification [] { id := "DOC-001" } none "N-7" "t1" =
        [⟨"N-7", "t1", some ⟨none, none⟩,
          ⟨"DOC-001", none, none, none, none, none, none⟩⟩] := by
      decide
    rw [he]
    have h : matchesTarget
        ⟨"N-7", "t1", some ⟨none, none⟩, ⟨"DOC-001", none, none, none, none, none, none⟩⟩
        user = false :=
      matchesTarget_empty_target_false _ rfl user
    simp [drainNotificationsForUser, List.filter, h]
  · intro user
    show some (matchesTarget ⟨"N-8", "t2", some ⟨none, some "a@b"⟩,
      ⟨"DOC-002", none, none, none, none, none, none⟩⟩ user) = _
    cases he : user.email with
    | none => simp [matchesTarget, jsTruthy, he]
    | some e =>
      rcases eq_or_ne e "" with rfl | hne
      · simp [matchesTarget, jsTruthy, he]
      · simp [matchesTarget, jsTruthy, he, hne]

/-- C2: `drainFor` is at-most-once.  The first drain returns exactly the
matching entries and persists exactly the non-matching remainder; a
second drain for the same identity returns the empty list, and no entry
appears in both results. -/
theorem drainFor_at_most_once (q : List PendingNotification) (user : NotificationTarget) :
    (drainNotificationsForUser (some q) user).1 =
      q.filter (fun n => matchesTarget n user) ∧
    (drainNotificationsForUser (some q) user).2 =
      some (q.filter (fun n => !(matchesTarget n user))) ∧
    (drainNotificationsForUser
      ((drainNotificationsForUser (some q) user).2) user).1 = [] ∧
    (∀ n, n ∈ (drainNotificationsForUser (some q) user).1 →
      n ∈ (drainNotificationsForUser
        ((drainNotificationsForUser (some q) user).2) user).1 → False) := by
  refine ⟨rfl, rfl, ?_, ?_⟩
  · simp [drainNotificationsForUser, List.filter_filter]
  · intro n h1 h2
    simp [drainNotificationsForUser, List.mem_filter] at h1 h2

/-- C9: when both the entry's target and the requester carry a (truthy)
`aadObjectId`, matching is decided solely by the case-insensitive
comparison of the two ids — the emails do not enter the result; the
email comparison is consulted only when one of the two ids is absent
(or empty). -/
theorem matchesTarget_aad_priority (n : PendingNotification)
    (t user : NotificationTarget) (h : n.target = some t) :
    (jsTruthy t.aadObjectId = true → jsTruthy user.aadObjectId = true →
      matchesTarget n user =
        (jsLower (t.aadObjectId.getD "") == jsLower (user.aadObjectId.getD ""))) ∧
    ((jsTruthy t.aadObjectId = false ∨ jsTruthy user.aadObjectId = false) →
      jsTruthy t.email = true → jsTruthy user.email = true →
      matchesTarget n user =
        (jsLower (t.email.getD "") == jsLower (user.email.getD ""))) := by
  constructor
  · intro h1 h2
    simp [matchesTarget, h, h1, h2]
  · intro h0 h1 h2
    have : (jsTruthy t.aadObjectId && jsTruthy user.aadObjectId) = false := by
      rcases h0 with h0 | h0 <;> simp [h0]
    simp [matchesTarget, h, this, h1, h2]

/-- Witness for `matchesTarget_aad_priority`: an entry targeted at AAD id
`"A"` with email `"x@y"` is not delivered to a requester with AAD id
`"b"` even though the requester's email `"X@Y"` matches
case-insensitively. -/
theorem matchesTarget_aad_priority_witness :
    (PendingNotification.mk "N-1" "t"
        (some ⟨some "A", some "x@y"⟩) ⟨"D-1", none, none, none, none, none, none⟩).target =
      some (NotificationTarget.mk (some "A") (some "x@y")) ∧
    matchesTarget
      (PendingNotification.mk "N-1" "t"
        (some ⟨some "A", some "x@y"⟩) ⟨"D-1", none, none, none, none, none, none⟩)
      (NotificationTarget.mk (some "b") (some "X@Y")) =
      (jsLower ((some "A").getD "") == jsLower ((some "b").getD "")) :=
  ⟨rfl,
    (matchesTarget_aad_priority _ ⟨some "A", some "x@y"⟩ ⟨some "b", some "X@Y"⟩ rfl).1
      (by decide) (by decide)⟩

/-- C10: on a greeting, the handler drains every queued entry matching
the requesting identity (the persisted queue afterwards contains none of
them), but renders at most one card — the card of the first drained
entry; all further drained entries are discarded without being
rendered. -/
theorem greeting_renders_at_most_one_card (q : List PendingNotification)
    (user : NotificationTarget) :
    (deliverQueuedNotifications (some q) user).1 =
      some (q.filter (fun n => !(matchesTarget n user))) ∧
    (deliverQueuedNotifications (some q) user).2 =
      ((q.filter (fun n => matchesTarget n user)).take 1).map cardOfNotification ∧
    (deliverQueuedNotifications (some q) user).2.length ≤ 1 ∧
    (∀ n ∈ q, matchesTarget n user = true →
      n ∉ q.filter (fun n => !(matchesTarget n user))) := by
  refine ⟨rfl, ?_, ?_, ?_⟩
  · show (match q.filter (fun n => matchesTarget n user) with
      | [] => []
      | n :: _ => [cardOfNotification n]) = _
    cases q.filter (fun n => matchesTarget n user) <;> simp
  · show (match q.filter (fun n => matchesTarget n user) with
      | [] => ([] : List NotificationCardData)
      | n :: _ => [cardOfNotification n]).length ≤ 1
    cases q.filter (fun n => matchesTarget n user) <;> simp
  · intro n _ hm
    simp [List.mem_filter, hm]

/-- Witness for `drainFor_at_most_once`: on a queue with one matching and
one non-matching entry, the first drain delivers the matching entry and
the second drain delivers nothing. -/
theorem drainFor_at_most_once_witness :
    (drainNotificationsForUser (some [sampleAadEntry, sampleEmailEntry]) sampleUser).1 =
      [sampleAadEntry] ∧
    (drainNotificationsForUser (some [sampleAadEntry, sampleEmailEntry]) sampleUser).2 =
      some [sampleEmailEntry] ∧
    (drainNotificationsForUser
      ((drainNotificationsForUser (some [sampleAadEntry, sampleEmailEntry]) sampleUser).2)
      sampleUser).1 = [] :=
  ⟨by decide, by decide,
    (drainFor_at_most_once [sampleAadEntry, sampleEmailEntry] sampleUser).2.2.1⟩

/-- Witness for `greeting_renders_at_most_one_card`: with two matching
entries queued, both are removed from the persisted queue but only the
first one's card is rendered. -/
theorem greeting_renders_at_most_one_card_witness :
    (deliverQueuedNotifications (some [sampleAadEntry, sampleAadEntry2]) sampleUser).1 =
      some [] ∧
    (deliverQueuedNotifications (some [sampleAadEntry, sampleAadEntry2]) sampleUser).2 =
      [cardOfNotification sampleAadEntry] ∧
    (deliverQueuedNotifications (some [sampleAadEntry, sampleAadEntry2]) sampleUser).2.length
      ≤ 1 :=
  ⟨by decide, by decide,
    (greeting_renders_at_most_one_card [sampleAadEntry, sampleAadEntry2] sampleUser).2.2.1⟩

/-! ## Theorems about the conversation registry -/

/-- Replacing an existing key in place leaves it findable with the new
value. -/
theorem find?_replaceKey (k : String) (v : ConversationRef) :
    ∀ m : List (String × ConversationRef), m.any (fun p => p.1 == k) = true →
      (m.map (fun p => if p.1 == k then (k, v) else p)).find?
        (fun p => p.1 == k) = some (k, v) := by
  intro m
  induction m with
  | nil => intro h; simp at h
  | cons x tl ih =>
    intro h
    by_cases hx : x.1 == k
    · simp only [List.map_cons, if_pos hx]
      rw [List.find?_cons_of_pos _ (by simp)]
    · simp only [List.map_cons, if_neg hx]
      rw [List.find?_cons_of_neg _ (by simpa using hx)]
      apply ih
      simp only [List.any_cons, Bool.or_eq_true] at h
      rcases h with h | h
      · exact absurd h hx
      · exact h

/-- After a JS object assignment, looking up the assigned key yields the
assigned value. -/
theorem getKey_setKey (m : List (String × ConversationRef)) (k : String)
    (v : ConversationRef) : getKey (setKey m k v) k = some v := by
  unfold setKey getKey
  cases hany : m.any (fun p => p.1 == k) with
  | true =>
    rw [if_pos rfl, find?_replaceKey k v m hany]
    rfl
  | false =>
    rw [if_neg (by simp)]
    have hnone : m.find? (fun p => p.1 == k) = none := by
      rw [List.find?_eq_none]
      intro x hx
      have hall := List.any_eq_false.mp hany x hx
      simpa using hall
    rw [List.find?_append, hnone]
    simp [List.find?]

/-- C8 (amended): registry keys are lower-cased on write and on lookup
(case-insensitive comparison); a falsy (absent or empty) identity or
email is never stored by `upsert`; `getByIdentity` rejects a
whitespace-only query after trimming.  (Whitespace-only but nonempty
keys, however, are stored verbatim by `upsert` and are looked up by
`findConversationFor` — see the counterexample.) -/
theorem conversation_registry_key_handling (r : RegistryJson)
    (input : UpsertInput) (now : String) (a : String) :
    (jsTruthy input.aadObjectId = false →
      (upsertConversationRef r input now).byAadObjectId = r.byAadObjectId) ∧
    (jsTruthy input.email = false →
      (upsertConversationRef r input now).byEmail = r.byEmail) ∧
    (jsTrim a = "" → getConversationRefByAadObjectId r a = none) ∧
    (jsTruthy input.aadObjectId = true → jsLower (jsTrim a) ≠ "" →
      jsLower (jsTrim a) = jsLower (input.aadObjectId.getD "") →
      getConversationRefByAadObjectId (upsertConversationRef r input now) a =
        some (builtRef input now)) := by
  refine ⟨?_, ?_, ?_, ?_⟩
  · intro h
    unfold upsertConversationRef
    simp only [h, Bool.false_eq_true, if_neg, not_false_iff]
    cases he : jsTruthy (builtRef input now).email <;> simp [he]
  · intro h
    have hemail : jsTruthy (builtRef input now).email = false := by
      simp only [builtRef]
      rw [if_neg (by simp [h])]
      rfl
    simp only [upsertConversationRef]
    rw [if_neg (by simp [hemail])]
    cases ha : jsTruthy input.aadObjectId <;> simp [ha]
  · intro h
    unfold getConversationRefByAadObjectId
    simp [h, jsLower]
  · intro h1 h2 h3
    have hbyAad : (upsertConversationRef r input now).byAadObjectId =
        setKey r.byAadObjectId (jsLower (input.aadObjectId.getD ""))
          (builtRef input now) := by
      unfold upsertConversationRef
      simp only [h1, if_pos]
      cases he : jsTruthy (builtRef input now).email <;> simp [he]
    unfold getConversationRefByAadObjectId
    rw [if_neg h2, h3, hbyAad, getKey_setKey]

/-- C8 counterexample: an upsert with the whitespace-only identity `" "`
does store the key `" "`, and `findConversationIdForTarget` queried with
the same whitespace-only identity does look it up and returns the
conversation id — so a whitespace-only key is both stored and looked
up. -/
theorem conversation_registry_whitespace_key_counterexample :
    (upsertConversationRef ⟨[], []⟩
        { aadObjectId := some " ", conversationId := "c1" } "t0").byAadObjectId =
      [(" ", { conversationId := "c1", updatedAt := "t0" })] ∧
    findConversationIdForTarget
      (upsertConversationRef ⟨[], []⟩
        { aadObjectId := some " ", conversationId := "c1" } "t0")
      { aadObjectId := some " " } = some "c1" := by
  decide

/-- Witness for `conversation_registry_key_handling`: an identity stored
as `"AbC"` is found by the differently-cased, padded query `" aBc "`
through `getConversationRefByAadObjectId`. -/
theorem conversation_registry_key_handling_witness :
    jsTruthy (some "AbC") = true ∧
    jsLower (jsTrim " aBc ") ≠ "" ∧
    jsLower (jsTrim " aBc ") = jsLower ((some "AbC").getD "") ∧
    getConversationRefByAadObjectId
      (upsertConversationRef ⟨[], []⟩
        { aadObjectId := some "AbC", conversationId := "c9" } "t1") " aBc " =
      some (builtRef { aadObjectId := some "AbC", conversationId := "c9" } "t1") :=
  ⟨by decide, by decide, by decide,
    (conversation_registry_key_handling ⟨[], []⟩
      { aadObjectId := some "AbC", conversationId := "c9" } "t1" " aBc ").2.2.2
      (by decide) (by decide) (by decide)⟩

/-! ## Theorems about document id assignment -/

set_option maxRecDepth 100000 in
set_option maxHeartbeats 4000000 in
/-- Parsing the id written for value `n` recovers `n`, for every `n` in
the claim's range. -/
theorem parseDocIdNum_mkDocId : ∀ n : Fin 1000,
    parseDocIdNum (mkDocId (n.val + 1)) = some (n.val + 1) := by
  decide

/-- A `filterMap` over images that all parse yields the mapped values. -/
theorem filterMap_map_all_some {α β γ : Type} (p : β → Option γ) (f : α → β)
    (g : α → γ) : ∀ l : List α, (∀ x ∈ l, p (f x) = some (g x)) →
      (l.map f).filterMap p = l.map g := by
  intro l
  induction l with
  | nil => intro _; rfl
  | cons a tl ih =>
    intro h
    simp only [List.map_cons, List.filterMap_cons, h a (List.mem_cons_self a tl)]
    rw [ih (fun x hx => h x (List.mem_cons_of_mem a hx))]

/-- The running maximum over the ids `1, …, k` is `k`. -/
theorem foldl_max_range_map (k : Nat) :
    (((List.range k).map (fun i => i + 1)).foldl max 0) = k := by
  induction k with
  | zero => rfl
  | succ k ih =>
    rw [List.range_succ, List.map_append, List.foldl_append, ih]
    simp

/-- Invariant step for id assignment: from a store whose ids are
`DOC-001 … DOC-k`, repeated insertion extends them to
`DOC-001 … DOC-(k+len)`. -/
theorem addDocuments_ids_aux (pairs : List (AddDocumentInput × String)) :
    ∀ (store : List ApprovalDocument) (k : Nat),
      store.map (fun d => d.id) = (List.range k).map (fun i => mkDocId (i + 1)) →
      k + pairs.length ≤ 999 →
      (addDocumentsFromStore store pairs).map (fun d => d.id) =
        (List.range (k + pairs.length)).map (fun i => mkDocId (i + 1)) := by
  induction pairs with
  | nil =>
    intro store k h _
    simpa [addDocumentsFromStore] using h
  | cons p rest ih =>
    intro store k h hle
    have hk : k ≤ 998 := by
      simp only [List.length_cons] at hle
      omega
    have hnums : store.filterMap (fun d => parseDocIdNum d.id) =
        (List.range k).map (fun i => i + 1) := by
      have hmap : store.filterMap (fun d => parseDocIdNum d.id) =
          (store.map (fun d => d.id)).filterMap parseDocIdNum := by
        rw [List.filterMap_map]
        rfl
      rw [hmap, h]
      apply filterMap_map_all_some
      intro i hi
      have hilt : i < k := List.mem_range.mp hi
      exact parseDocIdNum_mkDocId ⟨i, by omega⟩
    have hnext : nextId store = mkDocId (k + 1) := by
      simp only [nextId, mkDocId, hnums, foldl_max_range_map]
    have hstep : ((addDocumentToApprovalList store p.1 p.2).2).map (fun d => d.id) =
        (List.range (k + 1)).map (fun i => mkDocId (i + 1)) := by
      simp only [addDocumentToApprovalList]
      rw [List.map_append]
      simp only [List.map_cons, List.map_nil]
      rw [h, hnext, List.range_succ, List.map_append]
      simp
    have hrec := ih ((addDocumentToApprovalList store p.1 p.2).2) (k + 1) hstep
      (by simp only [List.length_cons] at hle ⊢; omega)
    have hlen : k + (p :: rest).length = (k + 1) + rest.length := by
      simp only [List.length_cons]
      omega
    rw [hlen]
    simpa [addDocumentsFromStore] using hrec

/-- C6: ids are assigned monotonically.  Inserting `N ≤ 999` documents
into an initially empty store (with no deletions) assigns, in order, the
ids `DOC-001, DOC-002, …` — the `n`-th assigned id is `DOC-` followed by
`n` zero-padded to three digits. -/
theorem addDocument_nth_id (pairs : List (AddDocumentInput × String))
    (h : pairs.length ≤ 999) :
    (addDocumentsFromStore [] pairs).map (fun d => d.id) =
      (List.range pairs.length).map (fun i => mkDocId (i + 1)) := by
  have := addDocuments_ids_aux pairs [] 0 (by simp) (by simpa using h)
  simpa using this

/-- Witness for `addDocument_nth_id`: three insertions into an empty
store assign `DOC-001`, `DOC-002`, `DOC-003`. -/
theorem addDocument_nth_id_witness :
    samplePairs.length ≤ 999 ∧
    (addDocumentsFromStore [] samplePairs).map (fun d => d.id) =
      ["DOC-001", "DOC-002", "DOC-003"] :=
  ⟨by decide, by
    rw [addDocument_nth_id samplePairs (by decide)]
    decide⟩

/-! ## Theorems about the document record store -/

/-- `a ?? b` with a present left operand. -/
theorem jsNullish_some (a : String) (b : Option String) :
    jsNullish (some a) b = some a := rfl

/-- Applying the same `?? b` fallback twice is the same as applying it
once. -/
theorem jsNullish_nullish_self (a b : Option String) :
    jsNullish (jsNullish a b) b = jsNullish a b := by
  cases a <;> cases b <;> rfl

/-- `a ?? c = a` when `a` is present. -/
theorem jsNullish_fst_some {a : Option String} (c : Option String)
    (h : a.isSome = true) : jsNullish a c = a := by
  cases a
  · simp at h
  · rfl

/-- `a ?? b` is present when `b` is. -/
theorem jsNullish_isSome_right {b : Option String} (a : Option String)
    (h : b.isSome = true) : (jsNullish a b).isSome = true := by
  cases a <;> simp [jsNullish, h]

/-- The first-truthy selection over `localPath`, `OriginalFileName`,
`fileName` is unchanged when `OriginalFileName` has absorbed the
`?? fileName` fallback. -/
theorem jsOrStr_nullish_mid (lp oF fN : Option String) :
    jsOrStr lp (jsOrStr (jsNullish oF fN) (jsOrStr fN none)) =
      jsOrStr lp (jsOrStr oF (jsOrStr fN none)) := by
  cases oF with
  | some s => rfl
  | none =>
    cases fN with
    | none => rfl
    | some t =>
      by_cases ht : t = ""
      · subst ht; rfl
      · simp [jsNullish, jsOrStr, jsTruthy, ht]

/-- `inferDocType` gives the same answer on a normalized record. -/
theorem inferDocTypeStore_normalizeDoc (d : ApprovalDocument) :
    inferDocTypeStore (normalizeDoc d) = inferDocTypeStore d := by
  have h : jsOrStr (normalizeDoc d).localPath
      (jsOrStr (normalizeDoc d).OriginalFileName
        (jsOrStr (normalizeDoc d).fileName none)) =
      jsOrStr d.localPath (jsOrStr d.OriginalFileName (jsOrStr d.fileName none)) := by
    simp only [normalizeDoc]
    exact jsOrStr_nullish_mid _ _ _
  simp only [inferDocTypeStore, h]

/-- `normalizeDoc` is idempotent. -/
theorem normalizeDoc_idem (d : ApprovalDocument) :
    normalizeDoc (normalizeDoc d) = normalizeDoc d := by
  have hinfer := inferDocTypeStore_normalizeDoc d
  simp only [normalizeDoc] at hinfer ⊢
  rw [hinfer]
  simp only [jsNullish_nullish_self]
  have hsome : (jsNullish d.Title (jsNullish d.title (jsNullish d.OriginalFileName
      (jsNullish d.fileName (some d.id))))).isSome = true :=
    jsNullish_isSome_right _ (jsNullish_isSome_right _ (jsNullish_isSome_right _
      (jsNullish_isSome_right _ rfl)))
  rw [jsNullish_fst_some _ hsome]

/-- Overwriting the state of a normalized record keeps it normalized. -/
theorem normalizeDoc_state_update (d : ApprovalDocument) (st : String) :
    normalizeDoc { normalizeDoc d with state := some st } =
      { normalizeDoc d with state := some st } := by
  have hinfer : inferDocTypeStore { normalizeDoc d with state := some st } =
      inferDocTypeStore d := by
    have h2 := inferDocTypeStore_normalizeDoc d
    simp only [inferDocTypeStore, normalizeDoc] at h2 ⊢
    exact h2
  simp only [normalizeDoc] at hinfer ⊢
  rw [hinfer]
  simp only [jsNullish_nullish_self, jsNullish_some]
  have hsome : (jsNullish d.Title (jsNullish d.title (jsNullish d.OriginalFileName
      (jsNullish d.fileName (some d.id))))).isSome = true :=
    jsNullish_isSome_right _ (jsNullish_isSome_right _ (jsNullish_isSome_right _
      (jsNullish_isSome_right _ rfl)))
  rw [jsNullish_fst_some _ hsome]

/-- Every record read back through `getAllDocuments` is a fixed point of
`normalizeDoc`. -/
theorem getAllDocuments_normalized (store : Option ApprovalDocumentsJson) :
    ∀ x ∈ getAllDocuments store, normalizeDoc x = x := by
  intro x hx
  cases store with
  | none => simp [getAllDocuments] at hx
  | some j =>
    cases hdoc : j.documents with
    | some l =>
      simp only [getAllDocuments, hdoc, List.mem_map] at hx
      obtain ⟨y, _, rfl⟩ := hx
      exact normalizeDoc_idem y
    | none =>
      cases hp : j.pending with
      | some l =>
        simp only [getAllDocuments, hdoc, hp, List.mem_map] at hx
        obtain ⟨y, _, rfl⟩ := hx
        exact normalizeDoc_idem y
      | none => simp [getAllDocuments, hdoc, hp] at hx

/-- A list of normalized records stays itself under `map normalizeDoc`. -/
theorem map_normalizeDoc_eq_self (l : List ApprovalDocument)
    (h : ∀ x ∈ l, normalizeDoc x = x) : l.map normalizeDoc = l := by
  calc l.map normalizeDoc = l.map id := List.map_congr_left h
  _ = l := List.map_id l

/-- Setting the state of one normalized record keeps the whole list
normalized. -/
theorem map_normalizeDoc_setStateAt :
    ∀ (l : List ApprovalDocument) (idx : Nat) (st : String),
      (∀ x ∈ l, normalizeDoc x = x) →
      (setStateAt l idx st).map normalizeDoc = setStateAt l idx st := by
  intro l
  induction l with
  | nil => intro idx st _; rfl
  | cons d tl ih =>
    intro idx st h
    have hd : normalizeDoc d = d := h d (List.mem_cons_self d tl)
    have htl : ∀ x ∈ tl, normalizeDoc x = x :=
      fun x hx => h x (List.mem_cons_of_mem d hx)
    cases idx with
    | zero =>
      simp only [setStateAt, List.map_cons]
      rw [map_normalizeDoc_eq_self tl htl]
      have : normalizeDoc { d with state := some st } = { d with state := some st } := by
        conv_lhs => rw [← hd]
        conv_rhs => rw [← hd]
        exact normalizeDoc_state_update d st
      rw [this]
    | succ n =>
      simp only [setStateAt, List.map_cons]
      rw [hd, ih n st htl]

/-- `setStateAt` does not change any record's id, so index search is
unaffected. -/
theorem findIdx?_setStateAt (idq : String) :
    ∀ (l : List ApprovalDocument) (idx : Nat) (st : String),
      (setStateAt l idx st).findIdx? (fun d => d.id == idq) =
        l.findIdx? (fun d => d.id == idq) := by
  intro l
  induction l with
  | nil => intro idx st; rfl
  | cons d tl ih =>
    intro idx st
    cases idx with
    | zero => simp [setStateAt, List.findIdx?_cons]
    | succ n => simp [setStateAt, List.findIdx?_cons, ih n st]

/-- Setting the same state twice at the same index is the same as
setting it once. -/
theorem setStateAt_setStateAt :
    ∀ (l : List ApprovalDocument) (idx : Nat) (st : String),
      setStateAt (setStateAt l idx st) idx st = setStateAt l idx st := by
  intro l
  induction l with
  | nil => intro idx st; rfl
  | cons d tl ih =>
    intro idx st
    cases idx with
    | zero => rfl
    | succ n => simp [setStateAt, ih n st]

/-- C7: `setState`'s contract.  With the id present at index `idx`:
the call returns `true`; the collection read back afterwards is exactly
the previous read-back collection with only that record's `state` field
replaced (every other field of every record unchanged); a second call
with the same state returns `true` again and persists an identical
store.  For any id not present, the call returns `false` and the
persisted store is untouched. -/
theorem setState_contract (store : Option ApprovalDocumentsJson)
    (id st : String) (idx : Nat) (hid : id ≠ "")
    (hfind : (getAllDocuments store).findIdx? (fun d => d.id == id) = some idx) :
    (setDocumentState store id st).1 = true ∧
    getAllDocuments (setDocumentState store id st).2 =
      setStateAt (getAllDocuments store) idx st ∧
    setDocumentState (setDocumentState store id st).2 id st =
      (true, (setDocumentState store id st).2) ∧
    (∀ id2 : String,
      (getAllDocuments store).findIdx? (fun d => d.id == id2) = none →
      setDocumentState store id2 st = (false, store)) := by
  have hset : setDocumentState store id st =
      (true, some { documents := some (setStateAt (getAllDocuments store) idx st),
                    pending := none }) := by
    simp only [setDocumentState, if_neg hid, hfind]
  have hnorm : ∀ x ∈ getAllDocuments store, normalizeDoc x = x :=
    getAllDocuments_normalized store
  have hread : getAllDocuments (setDocumentState store id st).2 =
      setStateAt (getAllDocuments store) idx st := by
    rw [hset]
    simp only [getAllDocuments]
    exact map_normalizeDoc_setStateAt _ idx st hnorm
  refine ⟨by rw [hset], hread, ?_, ?_⟩
  · have hL : getAllDocuments
        (some ⟨some (setStateAt (getAllDocuments store) idx st), none⟩) =
        setStateAt (getAllDocuments store) idx st := by
      simp only [getAllDocuments]
      exact map_normalizeDoc_setStateAt _ idx st hnorm
    have hfindL : (getAllDocuments
        (some ⟨some (setStateAt (getAllDocuments store) idx st), none⟩)).findIdx?
        (fun d => d.id == id) = some idx := by
      rw [hL, findIdx?_setStateAt, hfind]
    rw [hset]
    simp only [setDocumentState, if_neg hid, hfindL]
    rw [hL, setStateAt_setStateAt]
  · intro id2 hnone
    by_cases h2 : id2 = ""
    · simp [setDocumentState, h2]
    · simp [setDocumentState, h2, hnone]

/-- Witness for `setState_contract`, on `sampleStore` (its second record
is stored in legacy shape) at id `DOC-002`. -/
theorem setState_contract_witness :
    ("DOC-002" : String) ≠ "" ∧
    (getAllDocuments sampleStore).findIdx? (fun d => d.id == "DOC-002") = some 1 ∧
    (setDocumentState sampleStore "DOC-002" "approved").1 = true ∧
    setDocumentState (setDocumentState sampleStore "DOC-002" "approved").2
        "DOC-002" "approved" =
      (true, (setDocumentState sampleStore "DOC-002" "approved").2) :=
  ⟨by decide, by decide,
    (setState_contract sampleStore "DOC-002" "approved" 1 (by decide) (by decide)).1,
    (setState_contract sampleStore "DOC-002" "approved" 1 (by decide) (by decide)).2.2.1⟩

/-! ## Theorems about the filename parser -/

/-- C3 counterexample: the claim "returns null only for a null or
non-string input" fails — the JS falsiness guard `!filename` also sends
the well-formed empty string to null. -/
theorem parse_empty_string_counterexample :
    parseDocumentFilename (some "") = none := by
  rfl

/-- C3 (amended): the parser returns null exactly for a null/undefined
(or non-string) input and for the empty string; for every nonempty
string it returns a `ParsedFilename` result (the embedding is a total
function — no throwing path exists). -/
theorem parse_total_on_nonempty (s : String) (h : s ≠ "") :
    parseDocumentFilename none = none ∧
    (parseDocumentFilename (some s)).isSome = true := by
  refine ⟨rfl, ?_⟩
  simp only [parseDocumentFilename, if_neg h]
  rfl

/-- Witness for `parse_total_on_nonempty`. -/
theorem parse_total_on_nonempty_witness :
    ("a" : String) ≠ "" ∧ (parseDocumentFilename (some "a")).isSome = true :=
  ⟨by decide, (parse_total_on_nonempty "a" (by decide)).2⟩

/-- `parseMetadataTokens` with fewer than 4 `\s+-\s+` tokens falls back
to the unstructured result with empty metadata fields. -/
theorem parseMetadataTokens_short (ms tp nwe ext : List Char) (filename : String)
    (hlen : (((splitTokensWHW ms []).map trimChars).filter
      (fun t => t ≠ [])).length < 4) :
    parseMetadataTokens ms tp nwe ext filename =
      { title := ⟨if tp = [] then nwe else tp⟩
        docClass := ""
        docNo := ""
        docSheet := ""
        docRev := ""
        fileExtension := if ext = [] then "" else jsUpper ⟨ext⟩
        isIFSFormat := false
        isCopy := testCopyOf filename.toList } := by
  unfold parseMetadataTokens
  rcases htr : (((splitTokensWHW ms []).map trimChars).filter
      (fun t => t ≠ [])).reverse with _ | ⟨a, _ | ⟨b, _ | ⟨c, _ | ⟨e, tl⟩⟩⟩⟩
  · rw [htr]
  · rw [htr]
  · rw [htr]
  · rw [htr]
  · exfalso
    have hrl : (((splitTokensWHW ms []).map trimChars).filter
        (fun t => t ≠ [])).reverse.length < 4 := by
      simpa using hlen
    rw [htr] at hrl
    simp at hrl
    omega

/-- C5: when no bracket group qualifies and the alternative pattern also
fails, the result is unstructured with all four metadata fields empty;
and when a group qualifies under the 4-token rule of
`isIFSMetadataPattern` but splits into fewer than 4 tokens on
`\s+-\s+`, the result is likewise the unstructured one rather than
partially filled fields. -/
theorem parse_fallback_empty_fields (s : String) (hs : s ≠ "") :
    (parseDocumentFilename (some s) = some (parseDocumentFilenameCore s)) ∧
    (pickMetadataGroup (coreWithoutVersion s) = none →
      altScan (coreWithoutVersion s) 0 = none →
      (parseDocumentFilenameCore s).isIFSFormat = false ∧
      (parseDocumentFilenameCore s).docClass = "" ∧
      (parseDocumentFilenameCore s).docNo = "" ∧
      (parseDocumentFilenameCore s).docSheet = "" ∧
      (parseDocumentFilenameCore s).docRev = "") ∧
    (∀ idx content, pickMetadataGroup (coreWithoutVersion s) = some (idx, content) →
      (((splitTokensWHW content []).map trimChars).filter
        (fun t => t ≠ [])).length < 4 →
      (parseDocumentFilenameCore s).isIFSFormat = false ∧
      (parseDocumentFilenameCore s).docClass = "" ∧
      (parseDocumentFilenameCore s).docNo = "" ∧
      (parseDocumentFilenameCore s).docSheet = "" ∧
      (parseDocumentFilenameCore s).docRev = "") := by
  refine ⟨by simp [parseDocumentFilename, if_neg hs], ?_, ?_⟩
  · intro hpick halt
    refine ⟨?_, ?_, ?_, ?_, ?_⟩ <;>
      simp only [parseDocumentFilenameCore, hpick, halt] <;> trivial
  · intro idx content hpick hlen
    refine ⟨?_, ?_, ?_, ?_, ?_⟩ <;>
      simp only [parseDocumentFilenameCore, hpick,
        parseMetadataTokens_short _ _ _ _ _ hlen] <;> trivial

/-- Witness for `parse_fallback_empty_fields`: `"hello.txt"` has no
group and no alternative match; in `"T (A_1_2_B).docx"` the paren group
qualifies under the token rule but has a single `\s+-\s+` token. -/
theorem parse_fallback_empty_fields_witness :
    ("hello.txt" : String) ≠ "" ∧
    pickMetadataGroup (coreWithoutVersion "hello.txt") = none ∧
    altScan (coreWithoutVersion "hello.txt") 0 = none ∧
    (parseDocumentFilenameCore "hello.txt").isIFSFormat = false ∧
    (parseDocumentFilenameCore "hello.txt").docClass = "" ∧
    pickMetadataGroup (coreWithoutVersion "T (A_1_2_B).docx") =
      some (2, "A_1_2_B".toList) ∧
    (parseDocumentFilenameCore "T (A_1_2_B).docx").isIFSFormat = false ∧
    (parseDocumentFilenameCore "T (A_1_2_B).docx").docRev = "" :=
  ⟨by decide, by decide, by decide,
    ((parse_fallback_empty_fields "hello.txt" (by decide)).2.1
      (by decide) (by decide)).1,
    ((parse_fallback_empty_fields "hello.txt" (by decide)).2.1
      (by decide) (by decide)).2.1,
    by decide,
    ((parse_fallback_empty_fields "T (A_1_2_B).docx" (by decide)).2.2 2
      "A_1_2_B".toList (by decide) (by decide)).1,
    ((parse_fallback_empty_fields "T (A_1_2_B).docx" (by decide)).2.2 2
      "A_1_2_B".toList (by decide) (by decide)).2.2.2.2⟩

/-! ## Character-class facts used by the round-trip theorem -/

/-- An alphanumeric character is not whitespace. -/
theorem alnum_not_ws {c : Char} (h : c.isAlphanum = true) :
    c.isWhitespace = false := by
  by_contra hc
  rw [Bool.not_eq_false] at hc
  simp only [Char.isWhitespace, Bool.or_eq_true, decide_eq_true_eq] at hc
  have hc2 : c = ' ' ∨ c = '\t' ∨ c = '\r' ∨ c = '\n' := by tauto
  rcases hc2 with h1 | h1 | h1 | h1 <;> subst h1 <;> exact absurd h (by decide)

/-- An alphanumeric character is not a paren or bracket. -/
theorem alnum_not_group {c : Char} (h : c.isAlphanum = true) :
    isGroupChar c = false := by
  by_contra hc
  rw [Bool.not_eq_false] at hc
  simp only [isGroupChar, Bool.or_eq_true, decide_eq_true_eq] at hc
  have hc2 : c = '(' ∨ c = ')' ∨ c = '[' ∨ c = ']' := by tauto
  rcases hc2 with h1 | h1 | h1 | h1 <;> subst h1 <;> exact absurd h (by decide)

/-- A digit is alphanumeric. -/
theorem digit_alnum {c : Char} (h : c.isDigit = true) : c.isAlphanum = true := by
  simp [Char.isAlphanum, h]

/-! ## List helper lemmas for the round-trip theorem -/

/-- `takeWhile` over an append. -/
theorem takeWhile_append_full (p : Char → Bool) :
    ∀ a b : List Char, (a ++ b).takeWhile p =
      if a.all p then a ++ b.takeWhile p else a.takeWhile p := by
  intro a
  induction a with
  | nil => intro b; simp
  | cons c a' ih =>
    intro b
    by_cases hc : p c
    · by_cases ha : a'.all p <;>
        simp [List.takeWhile_cons, hc, ih b, ha, List.all_cons]
    · simp [List.takeWhile_cons, hc]

/-- `dropWhile` over an append. -/
theorem dropWhile_append_full (p : Char → Bool) :
    ∀ a b : List Char, (a ++ b).dropWhile p =
      if a.all p then b.dropWhile p else a.dropWhile p ++ b := by
  intro a
  induction a with
  | nil => intro b; simp
  | cons c a' ih =>
    intro b
    by_cases hc : p c
    · by_cases ha : a'.all p <;>
        simp [List.dropWhile_cons, hc, ih b, ha, List.all_cons]
    · simp [List.dropWhile_cons, hc]

/-- `dropWhile` is the identity when the head does not satisfy `p`. -/
theorem dropWhile_eq_self_of_head (p : Char → Bool) (l : List Char)
    (h : ∀ c, l.head? = some c → p c = false) : l.dropWhile p = l := by
  cases l with
  | nil => rfl
  | cons c rest =>
    rw [List.dropWhile_cons, if_neg]
    simp [h c rfl]

/-- `trimChars` is the identity when neither end is whitespace. -/
theorem trimChars_eq_self (l : List Char)
    (h1 : ∀ c, l.head? = some c → c.isWhitespace = false)
    (h2 : ∀ c, l.getLast? = some c → c.isWhitespace = false) :
    trimChars l = l := by
  unfold trimChars
  rw [dropWhile_eq_self_of_head _ _ h1]
  rw [dropWhile_eq_self_of_head _ _ (fun c hc => h2 c (by rwa [← List.head?_reverse]))]
  exact List.reverse_reverse l

/-- `trimChars` of an all-non-whitespace list is the identity. -/
theorem trimChars_of_no_ws (l : List Char)
    (h : ∀ c ∈ l, c.isWhitespace = false) : trimChars l = l := by
  refine trimChars_eq_self l ?_ ?_
  · intro c hc
    exact h c (by
      cases l with
      | nil => simp at hc
      | cons x xs =>
        simp only [List.head?_cons, Option.some.injEq] at hc
        subst hc
        exact List.mem_cons_self _ _)
  · intro c hc
    obtain ⟨hne, hceq⟩ := @List.mem_getLast?_eq_getLast _ l c
      (Option.mem_def.mpr hc)
    rw [hceq]
    exact h _ (List.getLast_mem hne)

/-- `trimChars` strips exactly a single appended space. -/
theorem trimChars_append_space (T : List Char) (hT : T ≠ [])
    (h1 : ∀ c, T.head? = some c → c.isWhitespace = false)
    (h2 : ∀ c, T.getLast? = some c → c.isWhitespace = false) :
    trimChars (T ++ [' ']) = T := by
  have hhead : ∀ c, (T ++ [' ']).head? = some c → c.isWhitespace = false := by
    intro c hc
    apply h1
    cases T with
    | nil => exact absurd rfl hT
    | cons x xs => simpa using hc
  unfold trimChars
  rw [dropWhile_eq_self_of_head _ _ hhead]
  rw [List.reverse_append, List.reverse_singleton, List.singleton_append]
  rw [List.dropWhile_cons, if_pos (by decide)]
  rw [dropWhile_eq_self_of_head _ _ (fun c hc => h2 c (by rwa [← List.head?_reverse]))]
  exact List.reverse_reverse T

/-! ## Stage lemmas for the round-trip theorem -/

/-- A name that does not test as a copy marker is left unchanged by the
copy-marker strip. -/
theorem stripCopyOf_of_test_false (cs : List Char)
    (h : testCopyOf cs = false) : stripCopyOf cs = cs := by
  match cs with
  | [] => rfl
  | [c1] => rfl
  | [c1, c2] => rfl
  | [c1, c2, c3] => rfl
  | [c1, c2, c3, c4] => rfl
  | [c1, c2, c3, c4, c5] => rfl
  | [c1, c2, c3, c4, c5, c6] => rfl
  | c1 :: c2 :: c3 :: c4 :: c5 :: c6 :: c7 :: rest =>
    simp only [stripCopyOf]
    by_cases hp : [c1, c2, c3, c4, c5, c6, c7].map Char.toLower
        == ['c', 'o', 'p', 'y', ' ', 'o', 'f']
    · rw [if_pos hp]
      cases rest with
      | nil => rfl
      | cons c8 tl =>
        have hws : c8.isWhitespace = false := by
          simp only [testCopyOf] at h
          rw [hp] at h
          simpa using h
        simp [hws]
    · rw [if_neg hp]

/-- Splitting at the last dot of `pre ++ '.' :: ext` with a dot-free
extension recovers the two parts. -/
theorem splitAtLastDot_append (pre ext : List Char)
    (h : ∀ c ∈ ext, c ≠ '.') :
    splitAtLastDot (pre ++ '.' :: ext) = (pre, '.' :: ext) := by
  have hcont : (pre ++ '.' :: ext).contains '.' = true := by
    simp [List.contains, List.elem_eq_mem]
  have hrev : (pre ++ '.' :: ext).reverse = ext.reverse ++ '.' :: pre.reverse := by
    simp
  have hallrev : ext.reverse.all (fun c => c ≠ '.') = true := by
    simp only [List.all_eq_true, List.mem_reverse]
    intro c hc
    simpa using h c hc
  unfold splitAtLastDot
  rw [if_pos hcont, hrev]
  dsimp only
  rw [dropWhile_append_full, if_pos hallrev]
  rw [takeWhile_append_full, if_pos hallrev]
  rw [List.dropWhile_cons, List.takeWhile_cons]
  simp

/-- Stripping the version suffix of `X ++ " - 1"` recovers `X` when `X`
does not end in whitespace. -/
theorem stripVersionSuffix_append (X : List Char)
    (h : ∀ c, X.getLast? = some c → c.isWhitespace = false) :
    stripVersionSuffix (X ++ [' ', '-', ' ', '1']) = X := by
  have hrev : (X ++ [' ', '-', ' ', '1']).reverse =
      '1' :: ' ' :: '-' :: ' ' :: X.reverse := by
    simp
  unfold stripVersionSuffix
  rw [hrev]
  rw [List.dropWhile_cons, if_neg (by decide)]
  dsimp only
  rw [if_pos (by decide)]
  rw [List.dropWhile_cons, if_neg (by decide)]
  rw [List.dropWhile_cons, if_pos (by decide)]
  rw [List.dropWhile_cons, if_neg (by decide)]
  dsimp only
  rw [if_pos rfl]
  rw [List.dropWhile_cons, if_pos (by decide)]
  rw [dropWhile_eq_self_of_head _ _ (fun c hc => h c (by rwa [← List.head?_reverse]))]
  exact List.reverse_reverse X

/-- `spanUntil` over content free of the stop character followed by the
stop character. -/
theorem spanUntil_append (cl : Char) :
    ∀ (content rest : List Char), (∀ c ∈ content, c ≠ cl) →
      spanUntil cl (content ++ cl :: rest) = some (content, rest) := by
  intro content
  induction content with
  | nil =>
    intro rest _
    simp [spanUntil]
  | cons c tl ih =>
    intro rest h
    have hc : c ≠ cl := h c (List.mem_cons_self c tl)
    simp only [List.cons_append, spanUntil, if_neg hc, List.append_eq]
    rw [ih rest (fun x hx => h x (List.mem_cons_of_mem c hx))]

/-- `findGroups` finds nothing when the opener never occurs. -/
theorem findGroups_of_no_opener (op cl : Char) :
    ∀ (cs : List Char) (i : Nat), (∀ c ∈ cs, c ≠ op) →
      findGroups op cl cs i = [] := by
  intro cs
  induction cs with
  | nil => intro i _; rfl
  | cons c rest ih =>
    intro i h
    rw [findGroups_cons, if_neg (h c (List.mem_cons_self c rest))]
    exact ih (i + 1) (fun x hx => h x (List.mem_cons_of_mem c hx))

/-- `findGroups` over an opener-free prefix, one group and nothing
after: exactly one match at the prefix length. -/
theorem findGroups_single (op cl : Char) (hne : op ≠ cl) :
    ∀ (P : List Char) (content : List Char) (i : Nat),
      (∀ c ∈ P, c ≠ op) → content ≠ [] → (∀ c ∈ content, c ≠ cl) →
      findGroups op cl (P ++ op :: content ++ [cl]) i =
        [(i + P.length, content)] := by
  intro P
  induction P with
  | nil =>
    intro content i _ hcne hcf
    simp only [List.nil_append, List.cons_append]
    rw [findGroups_cons, if_pos rfl]
    rw [spanUntil_append cl content [] hcf]
    dsimp only
    rw [if_neg hcne, findGroups_nil]
    simp
  | cons c P' ih =>
    intro content i hP hcne hcf
    have hc : c ≠ op := hP c (List.mem_cons_self c P')
    simp only [List.cons_append]
    rw [findGroups_cons, if_neg hc]
    rw [ih content (i + 1) (fun x hx => hP x (List.mem_cons_of_mem c hx)) hcne hcf]
    simp only [List.length_cons]
    rw [show i + 1 + P'.length = i + (P'.length + 1) from by omega]

/-- A separator-only prefix is dropped by `splitRuns`. -/
theorem splitRuns_sep_prefix (p : Char → Bool) :
    ∀ (sep b : List Char), (∀ c ∈ sep, p c = false) →
      splitRuns p (sep ++ b) = splitRuns p b := by
  intro sep
  induction sep with
  | nil => intro b _; rfl
  | cons c tl ih =>
    intro b h
    rw [List.cons_append, splitRuns_cons,
      if_neg (by simp [h c (List.mem_cons_self c tl)])]
    exact ih b (fun x hx => h x (List.mem_cons_of_mem c hx))

/-- A run of characters all satisfying `p` is a single token. -/
theorem splitRuns_single_run (p : Char → Bool) (l : List Char) (hne : l ≠ [])
    (h : ∀ c ∈ l, p c = true) : splitRuns p l = [l] := by
  cases l with
  | nil => exact absurd rfl hne
  | cons c rest =>
    rw [splitRuns_cons, if_pos (h c (List.mem_cons_self c rest))]
    have htk : rest.takeWhile p = rest :=
      List.takeWhile_eq_self_iff.mpr (fun x hx => h x (List.mem_cons_of_mem c hx))
    have hdr : rest.dropWhile p = [] :=
      List.dropWhile_eq_nil_iff.mpr (fun x hx => h x (List.mem_cons_of_mem c hx))
    rw [htk, hdr, splitRuns_nil]

/-- `splitRuns` distributes over a junction made of separator
characters. -/
theorem splitRuns_append_sep (p : Char → Bool) (sep : List Char)
    (hsep : ∀ c ∈ sep, p c = false) (hsepne : sep ≠ []) :
    ∀ (a b : List Char),
      splitRuns p (a ++ sep ++ b) = splitRuns p a ++ splitRuns p b := by
  have main : ∀ (n : Nat) (a : List Char), a.length ≤ n → ∀ b : List Char,
      splitRuns p (a ++ sep ++ b) = splitRuns p a ++ splitRuns p b := by
    intro n
    induction n with
    | zero =>
      intro a hlen b
      rw [Nat.le_zero] at hlen
      rw [List.length_eq_zero] at hlen
      subst hlen
      rw [List.nil_append, splitRuns_nil, List.nil_append,
        splitRuns_sep_prefix p sep b hsep]
    | succ n ih =>
      intro a hlen b
      match a with
      | [] =>
        rw [List.nil_append, splitRuns_nil, List.nil_append,
          splitRuns_sep_prefix p sep b hsep]
      | c :: a' =>
        have ha' : a'.length ≤ n := by
          simp only [List.length_cons] at hlen
          omega
        by_cases hc : p c
        · rw [List.cons_append, List.cons_append, splitRuns_cons, splitRuns_cons,
            if_pos hc, if_pos hc]
          by_cases hall : a'.all p
          · have htk1 : (a' ++ sep ++ b).takeWhile p = a' := by
              rw [List.append_assoc, takeWhile_append_full, if_pos hall]
              cases sep with
              | nil => exact absurd rfl hsepne
              | cons s stl =>
                rw [List.cons_append, List.takeWhile_cons,
                  if_neg (by simp [hsep s (List.mem_cons_self s stl)])]
                simp
            have hdr1 : (a' ++ sep ++ b).dropWhile p = sep ++ b := by
              rw [List.append_assoc, dropWhile_append_full, if_pos hall]
              cases sep with
              | nil => exact absurd rfl hsepne
              | cons s stl =>
                rw [List.cons_append, List.dropWhile_cons,
                  if_neg (by simp [hsep s (List.mem_cons_self s stl)])]
            have htk2 : a'.takeWhile p = a' :=
              List.takeWhile_eq_self_iff.mpr (by simpa [List.all_eq_true] using hall)
            have hdr2 : a'.dropWhile p = [] :=
              List.dropWhile_eq_nil_iff.mpr (by simpa [List.all_eq_true] using hall)
            rw [htk1, hdr1, htk2, hdr2, splitRuns_nil,
              splitRuns_sep_prefix p sep b hsep]
            simp
          · have htk1 : (a' ++ sep ++ b).takeWhile p = a'.takeWhile p := by
              rw [List.append_assoc, takeWhile_append_full, if_neg hall]
            have hdr1 : (a' ++ sep ++ b).dropWhile p = a'.dropWhile p ++ sep ++ b := by
              rw [List.append_assoc, dropWhile_append_full, if_neg hall,
                List.append_assoc]
            rw [htk1, hdr1]
            have hld : (a'.dropWhile p).length ≤ n :=
              le_trans (List.dropWhile_sublist p).length_le ha'
            rw [ih (a'.dropWhile p) hld b]
            simp
        · rw [List.cons_append, List.cons_append, splitRuns_cons, splitRuns_cons,
            if_neg (by simp [hc]), if_neg (by simp [hc])]
          exact ih a' ha' b
  intro a b
  exact main a.length a (Nat.le_refl _) b

/-- `splitRuns` yields at least one token when some character satisfies
`p`. -/
theorem splitRuns_ne_nil (p : Char → Bool) :
    ∀ l : List Char, (∃ c ∈ l, p c = true) → splitRuns p l ≠ [] := by
  intro l
  induction l with
  | nil => intro h; simp at h
  | cons c rest ih =>
    intro h
    by_cases hc : p c
    · rw [splitRuns_cons, if_pos hc]
      simp
    · rw [splitRuns_cons, if_neg (by simp [hc])]
      apply ih
      rcases h with ⟨x, hx, hpx⟩
      rcases List.mem_cons.mp hx with rfl | hx2
      · exact absurd hpx (by simp [hc])
      · exact ⟨x, hx2, hpx⟩

/-- Transport a pointwise property to the head. -/
theorem head?_prop {P : Char → Prop} (l : List Char) (h : ∀ c ∈ l, P c) :
    ∀ c, l.head? = some c → P c := by
  intro c hc
  have hl := List.eq_cons_of_mem_head? (Option.mem_def.mpr hc)
  exact h c (hl ▸ List.mem_cons_self c l.tail)

/-- Transport a pointwise property to the last element. -/
theorem getLast?_prop {P : Char → Prop} (l : List Char) (h : ∀ c ∈ l, P c) :
    ∀ c, l.getLast? = some c → P c := by
  intro c hc
  obtain ⟨hne, hceq⟩ := List.mem_getLast?_eq_getLast (Option.mem_def.mpr hc)
  rw [hceq]
  exact h _ (List.getLast_mem hne)

/-- Unpack an `Option.all` fact at a `some` value. -/
theorem option_all_some {o : Option Char} {p : Char → Bool} (h : o.all p = true) :
    ∀ c, o = some c → p c = true := by
  intro c hc
  subst hc
  simpa using h

/-- An alphanumeric character is not in the `[-_\s]` separator class. -/
theorem alnum_not_sep {c : Char} (h : c.isAlphanum = true) :
    isSepChar c = false := by
  have h1 : c ≠ '-' := fun hc => absurd h (by subst hc; decide)
  have h2 : c ≠ '_' := fun hc => absurd h (by subst hc; decide)
  simp [isSepChar, h1, h2, alnum_not_ws h]

/-- `stripTrailing` is the identity when the last character does not
satisfy `p`. -/
theorem stripTrailing_eq_self (p : Char → Bool) (l : List Char)
    (h : ∀ c, l.getLast? = some c → p c = false) : stripTrailing p l = l := by
  unfold stripTrailing
  rw [dropWhile_eq_self_of_head _ _ (fun c hc => h c (by rwa [← List.head?_reverse]))]
  exact List.reverse_reverse l

/-- `removeBracketGroups` is the identity when no opener occurs. -/
theorem removeBracketGroups_of_no_open (l : List Char)
    (h : ∀ c ∈ l, c ≠ '(' ∧ c ≠ '[') : removeBracketGroups l = l := by
  induction l with
  | nil => simp only [removeBracketGroups]
  | cons c rest ih =>
    have hc := h c (List.mem_cons_self c rest)
    simp only [removeBracketGroups]
    rw [if_neg hc.1, if_neg hc.2]
    rw [ih (fun x hx => h x (List.mem_cons_of_mem c hx))]

/-- The separator match fails when the first character is not
whitespace. -/
theorem matchWsHyphenWs_none_of_head (c : Char) (rest : List Char)
    (h : c.isWhitespace = false) : matchWsHyphenWs (c :: rest) = none := by
  simp [matchWsHyphenWs, h]

/-- The separator match consumes exactly `" - "` when what follows does
not start with whitespace. -/
theorem matchWsHyphenWs_sep (B : List Char)
    (hB : ∀ x, B.head? = some x → x.isWhitespace = false) :
    matchWsHyphenWs (' ' :: '-' :: ' ' :: B) = some B := by
  simp only [matchWsHyphenWs]
  rw [if_pos (by decide)]
  rw [List.dropWhile_cons, if_neg (by decide)]
  dsimp only
  rw [if_pos rfl]
  rw [if_pos (by decide)]
  rw [dropWhile_eq_self_of_head _ _ hB]

/-- `splitTokensWHW` over whitespace-free input is one token. -/
theorem splitTokensWHW_no_ws :
    ∀ (A : List Char), (∀ c ∈ A, c.isWhitespace = false) →
      ∀ cur, splitTokensWHW A cur = [cur.reverse ++ A] := by
  intro A
  induction A with
  | nil =>
    intro _ cur
    rw [splitTokensWHW_nil]
    simp
  | cons c rest ih =>
    intro hA cur
    rw [splitTokensWHW_cons,
      matchWsHyphenWs_none_of_head c rest (hA c (List.mem_cons_self c rest))]
    dsimp only
    rw [ih (fun x hx => hA x (List.mem_cons_of_mem c hx)) (c :: cur)]
    simp

/-- `splitTokensWHW` splits off one whitespace-free token at a `" - "`
junction. -/
theorem splitTokensWHW_sep_step :
    ∀ (A : List Char), (∀ c ∈ A, c.isWhitespace = false) →
      ∀ (B : List Char), (∀ x, B.head? = some x → x.isWhitespace = false) →
      ∀ cur, splitTokensWHW (A ++ ' ' :: '-' :: ' ' :: B) cur =
        (cur.reverse ++ A) :: splitTokensWHW B [] := by
  intro A
  induction A with
  | nil =>
    intro _ B hB cur
    rw [List.nil_append, splitTokensWHW_cons, matchWsHyphenWs_sep B hB]
    simp
  | cons c rest ih =>
    intro hA B hB cur
    rw [List.cons_append, splitTokensWHW_cons,
      matchWsHyphenWs_none_of_head c _ (hA c (List.mem_cons_self c rest))]
    dsimp only
    rw [ih (fun x hx => hA x (List.mem_cons_of_mem c hx)) B hB (c :: cur)]
    simp

/-- The metadata group content assembled from well-formed components
passes `isIFSMetadataPattern`. -/
theorem isIFSMetadataPattern_structured (C N S R : List Char)
    (hC : ∃ c ∈ C, isSepChar c = false)
    (hN1 : N ≠ []) (hN2 : ∀ c ∈ N, c.isDigit = true)
    (hS1 : S ≠ []) (hS2 : ∀ c ∈ S, c.isDigit = true)
    (hR1 : R ≠ []) (hR2 : ∀ c ∈ R, c.isAlphanum = true) :
    isIFSMetadataPattern (ifsContent C N S R) = true := by
  have hsep : ∀ c ∈ ifsSep3, (fun c => !isSepChar c) c = false := by decide
  have hsepne : ifsSep3 ≠ [] := by simp [ifsSep3]
  have hN : splitRuns (fun c => !isSepChar c) N = [N] :=
    splitRuns_single_run _ N hN1
      (fun c hc => by simp [alnum_not_sep (digit_alnum (hN2 c hc))])
  have hS : splitRuns (fun c => !isSepChar c) S = [S] :=
    splitRuns_single_run _ S hS1
      (fun c hc => by simp [alnum_not_sep (digit_alnum (hS2 c hc))])
  have hR : splitRuns (fun c => !isSepChar c) R = [R] :=
    splitRuns_single_run _ R hR1 (fun c hc => by simp [alnum_not_sep (hR2 c hc)])
  have htokens : splitRuns (fun c => !isSepChar c) (ifsContent C N S R) =
      splitRuns (fun c => !isSepChar c) C ++ ([N] ++ ([S] ++ [R])) := by
    rw [show ifsContent C N S R =
      C ++ ifsSep3 ++ (N ++ ifsSep3 ++ (S ++ ifsSep3 ++ R)) from by
        simp [ifsContent, List.append_assoc]]
    rw [splitRuns_append_sep _ ifsSep3 hsep hsepne]
    rw [splitRuns_append_sep _ ifsSep3 hsep hsepne]
    rw [splitRuns_append_sep _ ifsSep3 hsep hsepne]
    rw [hN, hS, hR]
  have hCne : splitRuns (fun c => !isSepChar c) C ≠ [] := by
    apply splitRuns_ne_nil
    rcases hC with ⟨c, hcmem, hcsep⟩
    exact ⟨c, hcmem, by simp [hcsep]⟩
  obtain ⟨x, xs, hxeq⟩ := List.exists_cons_of_ne_nil hCne
  have hw : (x :: xs).reverse ≠ [] := by simp
  obtain ⟨y, ys, hyeq⟩ := List.exists_cons_of_ne_nil hw
  have hrev : (splitRuns (fun c => !isSepChar c) (ifsContent C N S R)).reverse =
      R :: S :: N :: y :: ys := by
    rw [htokens, hxeq, List.reverse_append, hyeq]
    simp
  unfold isIFSMetadataPattern
  dsimp only
  rw [hrev]
  dsimp only
  simp only [Bool.and_eq_true, List.all_eq_true]
  exact ⟨⟨hN2, hS2⟩, hR2⟩

/-- Unpack `isGroupChar c = false` into the four inequalities. -/
theorem group_false_ne {c : Char} (h : isGroupChar c = false) :
    c ≠ '(' ∧ c ≠ ')' ∧ c ≠ '[' ∧ c ≠ ']' := by
  refine ⟨?_, ?_, ?_, ?_⟩ <;> intro hc <;> subst hc <;> exact absurd h (by decide)

/-- `intercalate` of a one-element list. -/
theorem intercalate_single (sep : List Char) (x : List Char) :
    List.intercalate sep [x] = x := by
  simp [List.intercalate, List.intersperse]

set_option maxHeartbeats 2000000 in
/-- C4: every well-formed structured filename `"T (C - N - S - R) - 1.ext"`
(title bracket-free with non-whitespace edges, class whitespace- and
bracket-free containing a non-separator character, number and sheet
nonempty digit strings, revision nonempty alphanumeric, extension
nonempty without dots or whitespace, and the whole name not starting
with a copy marker) parses to exactly
`{title = T, docClass = C, docNo = N, docSheet = S, docRev = upper R,
fileExtension = upper ".ext", isIFSFormat = true, isCopy = false}`. -/
theorem parse_structured_roundtrip
    (T C N S R ext : List Char)
    (hT1 : T ≠ [])
    (hT2 : ∀ c ∈ T, isGroupChar c = false)
    (hT3 : (T.head?.all fun c => !c.isWhitespace) = true)
    (hT4 : (T.getLast?.all fun c => !c.isWhitespace) = true)
    (hcopy : testCopyOf (mkStructuredName T C N S R ext) = false)
    (hC1 : C ≠ [])
    (hC2 : ∀ c ∈ C, c.isWhitespace = false ∧ isGroupChar c = false)
    (hC3 : ∃ c ∈ C, isSepChar c = false)
    (hN1 : N ≠ []) (hN2 : ∀ c ∈ N, c.isDigit = true)
    (hS1 : S ≠ []) (hS2 : ∀ c ∈ S, c.isDigit = true)
    (hR1 : R ≠ []) (hR2 : ∀ c ∈ R, c.isAlphanum = true)
    (hE1 : ext ≠ []) (hE2 : ∀ c ∈ ext, c.isWhitespace = false ∧ c ≠ '.') :
    parseDocumentFilename (some ⟨mkStructuredName T C N S R ext⟩) =
      some { title := ⟨T⟩
             docClass := ⟨C⟩
             docNo := ⟨N⟩
             docSheet := ⟨S⟩
             docRev := jsUpper ⟨R⟩
             fileExtension := jsUpper ⟨'.' :: ext⟩
             isIFSFormat := true
             isCopy := false } := by
  have hT3' : ∀ c, T.head? = some c → c.isWhitespace = false := by
    intro c hc
    have := option_all_some hT3 c hc
    simpa using this
  have hT4' : ∀ c, T.getLast? = some c → c.isWhitespace = false := by
    intro c hc
    have := option_all_some hT4 c hc
    simpa using this
  have hmk_eq1 : mkStructuredName T C N S R ext =
      T ++ (' ' :: '(' ::
        (ifsContent C N S R ++ ')' :: ' ' :: '-' :: ' ' :: '1' :: '.' :: ext)) := by
    simp [mkStructuredName]
  have hmk_eq2 : mkStructuredName T C N S R ext =
      (T ++ (' ' :: '(' :: []) ++ ifsContent C N S R ++
        (')' :: ' ' :: '-' :: ' ' :: '1' :: '.' :: [])) ++ ext := rfl
  have hmk_ne : mkStructuredName T C N S R ext ≠ [] := by
    rw [hmk_eq1]
    intro h
    exact hT1 (List.append_eq_nil.mp h).1
  have hs_ne : (⟨mkStructuredName T C N S R ext⟩ : String) ≠ "" := by
    intro h
    exact hmk_ne (congrArg String.data h)
  -- character-class facts about the group content
  have hcont_group : ∀ c ∈ ifsContent C N S R, isGroupChar c = false := by
    intro c hc
    have hm : c ∈ C ∨ c ∈ ifsSep3 ∨ c ∈ N ∨ c ∈ S ∨ c ∈ R := by
      simp only [ifsContent, List.append_assoc, List.mem_append] at hc
      tauto
    rcases hm with h | h | h | h | h
    · exact (hC2 c h).2
    · have h2 : c = ' ' ∨ c = '-' := by
        simp only [ifsSep3, List.mem_cons, List.not_mem_nil, or_false] at h
        tauto
      rcases h2 with rfl | rfl <;> decide
    · exact alnum_not_group (digit_alnum (hN2 c h))
    · exact alnum_not_group (digit_alnum (hS2 c h))
    · exact alnum_not_group (hR2 c h)
  have hcontne : ifsContent C N S R ≠ [] := by
    intro h
    have hlen := congrArg List.length h
    simp only [ifsContent, ifsSep3, List.length_append, List.length_cons,
      List.length_nil] at hlen
    omega
  -- the clean-up stages are the identity on the assembled name
  have hclean : cleanedName ⟨mkStructuredName T C N S R ext⟩ =
      mkStructuredName T C N S R ext := by
    unfold cleanedName
    rw [show (⟨mkStructuredName T C N S R ext⟩ : String).toList =
      mkStructuredName T C N S R ext from rfl]
    rw [stripCopyOf_of_test_false _ hcopy]
    refine trimChars_eq_self _ ?_ ?_
    · intro c hc
      rw [hmk_eq1, List.head?_append_of_ne_nil T hT1] at hc
      exact hT3' c hc
    · intro c hc
      rw [hmk_eq2, List.getLast?_append_of_ne_nil _ hE1] at hc
      exact getLast?_prop ext (fun x hx => (hE2 x hx).1) c hc
  have hpre_eq : mkStructuredName T C N S R ext =
      (T ++ (' ' :: '(' :: []) ++ ifsContent C N S R ++
        [')', ' ', '-', ' ', '1']) ++ '.' :: ext := by
    simp [mkStructuredName]
  have hsplit : coreNameExt ⟨mkStructuredName T C N S R ext⟩ =
      (T ++ (' ' :: '(' :: []) ++ ifsContent C N S R ++ [')', ' ', '-', ' ', '1'],
        '.' :: ext) := by
    unfold coreNameExt
    rw [hclean, hpre_eq]
    exact splitAtLastDot_append _ ext (fun c hc => (hE2 c hc).2)
  have hwv : coreWithoutVersion ⟨mkStructuredName T C N S R ext⟩ =
      T ++ (' ' :: '(' :: []) ++ ifsContent C N S R ++ [')'] := by
    unfold coreWithoutVersion
    rw [hsplit]
    dsimp only
    rw [show T ++ (' ' :: '(' :: []) ++ ifsContent C N S R ++ [')', ' ', '-', ' ', '1'] =
      (T ++ (' ' :: '(' :: []) ++ ifsContent C N S R ++ [')']) ++ [' ', '-', ' ', '1']
      from by simp]
    apply stripVersionSuffix_append
    intro c hc
    rw [List.getLast?_append_of_ne_nil _ (by simp : ([')'] : List Char) ≠ [])] at hc
    simp only [List.getLast?_singleton, Option.some.injEq] at hc
    subst hc
    decide
  -- the group scan finds exactly the metadata group
  have hPne_op : ∀ c ∈ T ++ [' '], c ≠ '(' := by
    intro c hc
    rcases List.mem_append.mp hc with h | h
    · exact (group_false_ne (hT2 c h)).1
    · rw [List.mem_singleton] at h
      subst h
      decide
  have hcont_ncl : ∀ c ∈ ifsContent C N S R, c ≠ ')' :=
    fun c hc => (group_false_ne (hcont_group c hc)).2.1
  have hno_br : ∀ c ∈ (T ++ [' ']) ++ '(' :: ifsContent C N S R ++ [')'], c ≠ '[' := by
    intro c hc
    have hm : c ∈ T ∨ c = ' ' ∨ c = '(' ∨ c ∈ ifsContent C N S R ∨ c = ')' := by
      simp only [List.mem_append, List.mem_cons, List.mem_singleton,
        List.not_mem_nil, or_false] at hc
      tauto
    rcases hm with h | h | h | h | h
    · exact (group_false_ne (hT2 c h)).2.2.1
    · subst h; decide
    · subst h; decide
    · exact (group_false_ne (hcont_group c h)).2.2.1
    · subst h; decide
  have hifs : isIFSMetadataPattern (ifsContent C N S R) = true :=
    isIFSMetadataPattern_structured C N S R hC3 hN1 hN2 hS1 hS2 hR1 hR2
  have hpick : pickMetadataGroup (T ++ (' ' :: '(' :: []) ++ ifsContent C N S R ++ [')']) =
      some (T.length + 1, ifsContent C N S R) := by
    unfold pickMetadataGroup allGroupMatches
    rw [show T ++ (' ' :: '(' :: []) ++ ifsContent C N S R ++ [')'] =
      (T ++ [' ']) ++ '(' :: ifsContent C N S R ++ [')'] from by simp]
    rw [findGroups_single '(' ')' (by decide) (T ++ [' ']) (ifsContent C N S R) 0
      hPne_op hcontne hcont_ncl]
    rw [findGroups_of_no_opener '[' ']' _ 0 hno_br]
    rw [List.append_nil]
    simp only [sortByIdx, insertByIdx, List.reverse_cons, List.reverse_nil,
      List.nil_append]
    rw [List.find?_cons_of_pos _ (by exact hifs)]
    simp
  -- the title stages are the identity on `T`
  have htake : trimChars ((T ++ (' ' :: '(' :: []) ++ ifsContent C N S R ++
      [')']).take (T.length + 1)) = T := by
    rw [show T ++ (' ' :: '(' :: []) ++ ifsContent C N S R ++ [')'] =
      (T ++ [' ']) ++ ('(' :: (ifsContent C N S R ++ [')'])) from by simp]
    rw [show T.length + 1 = (T ++ [' ']).length from by simp]
    rw [List.take_left]
    exact trimChars_append_space T hT1 hT3' hT4'
  have hstripT : stripTrailing isTitleStripChar T = T := by
    apply stripTrailing_eq_self
    intro c hc
    have hw : c.isWhitespace = false := hT4' c hc
    have hg := group_false_ne (getLast?_prop T hT2 c hc)
    simp [isTitleStripChar, hw, hg.1, hg.2.1, hg.2.2.1, hg.2.2.2]
  have htrimT : trimChars T = T := trimChars_eq_self T hT3' hT4'
  have hrmT : removeBracketGroups T = T :=
    removeBracketGroups_of_no_open T (fun c hc =>
      ⟨(group_false_ne (hT2 c hc)).1, (group_false_ne (hT2 c hc)).2.2.1⟩)
  -- tokenizing the group content
  have hCnows : ∀ c ∈ C, c.isWhitespace = false := fun c hc => (hC2 c hc).1
  have hNnows : ∀ c ∈ N, c.isWhitespace = false :=
    fun c hc => alnum_not_ws (digit_alnum (hN2 c hc))
  have hSnows : ∀ c ∈ S, c.isWhitespace = false :=
    fun c hc => alnum_not_ws (digit_alnum (hS2 c hc))
  have hRnows : ∀ c ∈ R, c.isWhitespace = false :=
    fun c hc => alnum_not_ws (hR2 c hc)
  have hheadN : ∀ x, (N ++ ' ' :: '-' :: ' ' ::
      (S ++ ' ' :: '-' :: ' ' :: R)).head? = some x → x.isWhitespace = false := by
    intro x hx
    rw [List.head?_append_of_ne_nil N hN1] at hx
    exact head?_prop N hNnows x hx
  have hheadS : ∀ x, (S ++ ' ' :: '-' :: ' ' :: R).head? = some x →
      x.isWhitespace = false := by
    intro x hx
    rw [List.head?_append_of_ne_nil S hS1] at hx
    exact head?_prop S hSnows x hx
  have hheadR : ∀ x, R.head? = some x → x.isWhitespace = false :=
    head?_prop R hRnows
  have htok : splitTokensWHW (ifsContent C N S R) [] = [C, N, S, R] := by
    rw [show ifsContent C N S R =
      C ++ ' ' :: '-' :: ' ' :: (N ++ ' ' :: '-' :: ' ' ::
        (S ++ ' ' :: '-' :: ' ' :: R)) from by simp [ifsContent, ifsSep3]]
    rw [splitTokensWHW_sep_step C hCnows _ hheadN []]
    rw [splitTokensWHW_sep_step N hNnows _ hheadS []]
    rw [splitTokensWHW_sep_step S hSnows R hheadR []]
    rw [splitTokensWHW_no_ws R hRnows []]
    simp
  have htrimC : trimChars C = C := trimChars_of_no_ws C hCnows
  have htrimN : trimChars N = N := trimChars_of_no_ws N hNnows
  have htrimS : trimChars S = S := trimChars_of_no_ws S hSnows
  have htrimR : trimChars R = R := trimChars_of_no_ws R hRnows
  have hfilt : ((splitTokensWHW (ifsContent C N S R) []).map trimChars).filter
      (fun t => t ≠ []) = [C, N, S, R] := by
    rw [htok]
    simp only [List.map_cons, List.map_nil]
    rw [htrimC, htrimN, htrimS, htrimR]
    simp [hC1, hN1, hS1, hR1]
  have hptok : parseMetadataTokens (ifsContent C N S R) T
      (T ++ (' ' :: '(' :: []) ++ ifsContent C N S R ++ [')', ' ', '-', ' ', '1'])
      ('.' :: ext) ⟨mkStructuredName T C N S R ext⟩ =
      { title := ⟨T⟩
        docClass := ⟨C⟩
        docNo := ⟨N⟩
        docSheet := ⟨S⟩
        docRev := jsUpper ⟨R⟩
        fileExtension := jsUpper ⟨'.' :: ext⟩
        isIFSFormat := true
        isCopy := false } := by
    unfold parseMetadataTokens
    rw [hfilt]
    rw [show ([C, N, S, R] : List (List Char)).reverse = [R, S, N, C] from by simp]
    dsimp only [String.toList]
    rw [if_neg hT1]
    rw [if_neg (by simp : ¬('.' :: ext : List Char) = [])]
    rw [show ((C :: []) : List (List Char)).reverse = [C] from by simp]
    rw [intercalate_single]
    rw [htrimC, htrimN, htrimS, htrimR, hcopy]
  -- assemble
  simp only [parseDocumentFilename]
  rw [if_neg hs_ne]
  simp only [parseDocumentFilenameCore, hwv, hpick]
  rw [hsplit]
  dsimp only
  rw [htake, hstripT, htrimT, hrmT]
  rw [if_pos rfl]
  rw [hptok]

/-- Witness for `parse_structured_roundtrip`: the assembled name is the
spec's example `"Design Spec (01-TEST - 1028340 - 1 - A1) - 1.docx"` and
it parses to the expected record. -/
theorem parse_structured_roundtrip_witness :
    (⟨mkStructuredName "Design Spec".toList "01-TEST".toList "1028340".toList
        "1".toList "A1".toList "docx".toList⟩ : String) =
      "Design Spec (01-TEST - 1028340 - 1 - A1) - 1.docx" ∧
    parseDocumentFilename (some ⟨mkStructuredName "Design Spec".toList
        "01-TEST".toList "1028340".toList "1".toList "A1".toList "docx".toList⟩) =
      some { title := "Design Spec"
             docClass := "01-TEST"
             docNo := "1028340"
             docSheet := "1"
             docRev := "A1"
             fileExtension := ".DOCX"
             isIFSFormat := true
             isCopy := false } :=
  ⟨by decide, by
    rw [parse_structured_roundtrip "Design Spec".toList "01-TEST".toList
      "1028340".toList "1".toList "A1".toList "docx".toList (by decide) (by decide)
      (by decide) (by decide) (by decide) (by decide) (by decide) (by decide)
      (by decide) (by decide) (by decide) (by decide) (by decide) (by decide)
      (by decide) (by decide)]
    decide⟩

end DocmanBot
